import Mathlib

/-!
# Verification of the orchestra dependency-graph pipeline

Shallow embedding of `src/orchestra/executor.py`: the dependency graph is a
finite directed graph over natural-number node identifiers (one id per
`Action` object; id 0 is the synthetic `DUMMY_ROOT` node).  Action attributes
that the executor consults (`is_satisfied()`, `isinstance(_, AnyOfAction)`,
`preferred_action`, `str(action)`, the `(component, build)` tags of
`ActionForBuild`, declared `dependencies`, and whether `run` raises) are
collected in a `World` record, mirroring the action contract the executor
relies on.
-/

namespace Orchestra

/-- A directed graph in the style of `networkx.DiGraph`: a finite node set and
a finite edge set.  `add_edge` inserts missing endpoints, like networkx. -/
structure DiGraph where
  nodes : Finset ℕ
  edges : Finset (ℕ × ℕ)
deriving DecidableEq

/-- The id of the synthetic `DUMMY_ROOT` node added by the graph builder. -/
def ROOT : ℕ := 0

/-- Attributes of the `Action` objects that `executor.py` consults:
`is_satisfied()`, `isinstance(_, AnyOfAction)`, `preferred_action` (as a node
id), `str(action)` (as an abstract name key, see `keyer`), the
`(component, build)` tag of an `ActionForBuild`, the declared `dependencies`,
and whether `run` raises. -/
structure World where
  satisfied : ℕ → Bool
  isChoice : ℕ → Bool
  preferred : ℕ → ℕ
  name : ℕ → ℕ
  buildTag : ℕ → Option (ℕ × ℕ)
  deps : ℕ → List ℕ
  outcome : ℕ → Bool

namespace DiGraph

/-- `graph.add_edge(u, v)` (networkx inserts missing endpoints as nodes). -/
def addEdge (g : DiGraph) (u v : ℕ) : DiGraph :=
  ⟨insert v (insert u g.nodes), insert (u, v) g.edges⟩

/-- `graph.remove_edge(u, v)` (nodes are kept). -/
def removeEdge (g : DiGraph) (u v : ℕ) : DiGraph :=
  ⟨g.nodes, g.edges.erase (u, v)⟩

/-- `graph.add_node(u)`. -/
def addNode (g : DiGraph) (u : ℕ) : DiGraph :=
  ⟨insert u g.nodes, g.edges⟩

/-- `graph.add_nodes_from(s)`. -/
def addNodes (g : DiGraph) (s : Finset ℕ) : DiGraph :=
  ⟨g.nodes ∪ s, g.edges⟩

/-- `graph.remove_nodes_from(s)`: nodes and all incident edges disappear. -/
def removeNodes (g : DiGraph) (s : Finset ℕ) : DiGraph :=
  ⟨g.nodes \ s, g.edges.filter (fun e => e.1 ∉ s ∧ e.2 ∉ s)⟩

/-- `graph.remove_node(u)`. -/
def removeNode (g : DiGraph) (u : ℕ) : DiGraph :=
  g.removeNodes {u}

/-- `graph.add_edges_from(l)`. -/
def addEdges (g : DiGraph) (l : List (ℕ × ℕ)) : DiGraph :=
  l.foldl (fun h e => h.addEdge e.1 e.2) g

/-- `list(graph.successors(u))` as a finite set. -/
def succs (g : DiGraph) (u : ℕ) : Finset ℕ :=
  (g.edges.filter (fun e => e.1 = u)).image Prod.snd

/-- `list(graph.predecessors(u))` as a finite set. -/
def preds (g : DiGraph) (u : ℕ) : Finset ℕ :=
  (g.edges.filter (fun e => e.2 = u)).image Prod.fst

/-- Well-formedness: every edge endpoint is a node (always true of a
networkx graph, by construction of `add_edge`). -/
def WF (g : DiGraph) : Prop :=
  ∀ e ∈ g.edges, e.1 ∈ g.nodes ∧ e.2 ∈ g.nodes

instance : DecidablePred WF := fun g =>
  inferInstanceAs (Decidable (∀ e ∈ g.edges, e.1 ∈ g.nodes ∧ e.2 ∈ g.nodes))

/-- One step of breadth-first expansion: a set together with all direct
successors of its members. -/
def nextSet (g : DiGraph) (s : Finset ℕ) : Finset ℕ :=
  s ∪ (g.edges.filter (fun e => e.1 ∈ s)).image Prod.snd

/-- All nodes reachable from `u` (computed by iterating `nextSet` to its
fixed point; `g.nodes.card` iterations always suffice). -/
def reachSet (g : DiGraph) (u : ℕ) : Finset ℕ :=
  (nextSet g)^[g.nodes.card] {u}

/-- Executable reachability test, the semantics of containment in
`nx.multi_source_dijkstra_path_length(graph, [u])`. -/
def reachesB (g : DiGraph) (u v : ℕ) : Bool :=
  v ∈ reachSet g u

/-- The edge relation of the graph. -/
def EdgeRel (g : DiGraph) (u v : ℕ) : Prop :=
  (u, v) ∈ g.edges

/-- Propositional reachability: the reflexive-transitive closure of the edge
relation. -/
def Reaches (g : DiGraph) : ℕ → ℕ → Prop :=
  Relation.ReflTransGen (EdgeRel g)

/-- Reachability from at least one of a list of source nodes. -/
def reachesAnyB (g : DiGraph) (roots : List ℕ) (v : ℕ) : Bool :=
  roots.any (fun r => reachesB g r v)

/-- `Executor._remove_unreachable_actions(graph, roots)`: drop every node not
reachable from one of `roots` (and with it its incident edges). -/
def remove_unreachable (g : DiGraph) (roots : List ℕ) : DiGraph :=
  ⟨g.nodes.filter (fun n => reachesAnyB g roots n),
   g.edges.filter (fun e => reachesAnyB g roots e.1 ∧ reachesAnyB g roots e.2)⟩

/-- `graph.subgraph(s)`: the subgraph induced on `s`. -/
def inducedSub (g : DiGraph) (s : Finset ℕ) : DiGraph :=
  ⟨g.nodes ∩ s, g.edges.filter (fun e => e.1 ∈ s ∧ e.2 ∈ s)⟩

/-- Executable acyclicity test, the semantics of
`nx.is_directed_acyclic_graph`: no edge closes a cycle. -/
def isAcyclicB (g : DiGraph) : Bool :=
  decide (∀ e ∈ g.edges, reachesB g e.2 e.1 = false)

/-- Propositional acyclicity: no node lies on a (nonempty) cycle. -/
def Acyclic (g : DiGraph) : Prop :=
  ∀ u v : ℕ, (u, v) ∈ g.edges → ¬ Reaches g v u

end DiGraph

open DiGraph

/-! ### Stable sorting

Python's `list.sort(key=...)` / `sorted(...)` is a stable ascending sort.  Any
stable sort with respect to a total preorder computes the same list, so we
embed it with a stable insertion sort. -/

/-- Insert `a` into `l` in front of the first element it is `le`-below;
when keys are equal `a` (the earlier element of the original list) stays in
front, which is exactly stability. -/
def insSorted {α : Type*} (le : α → α → Bool) (a : α) : List α → List α
  | [] => [a]
  | b :: bs => if le a b then a :: b :: bs else b :: insSorted le a bs

/-- Stable ascending sort with respect to the boolean preorder `le`. -/
def sortStable {α : Type*} (le : α → α → Bool) : List α → List α
  | [] => []
  | a :: as => insSorted le a (sortStable le as)

/-- Canonical ascending enumeration of a finite set of node ids (Python
iterates sets and adjacency dicts in an unspecified order; the executor never
relies on it, and the embedding fixes the ascending order). -/
def ascList (s : Finset ℕ) : List ℕ :=
  (List.range (s.sup id + 1)).filter (fun x => x ∈ s)

/-! ### The choice-priority key (`keyer` in `executor.py`) -/

/-- `keyer(to_assign)(action)`: priority 0 for an already-satisfied
alternative, 1 for the designated preferred alternative, 2 otherwise; ties
are broken by `str(action)`.  `World.name` is the qualified-name string of
the action under an order embedding of strings (Python compares the unique
qualified names lexicographically; only their total order matters, so the
embedding uses an abstract numeric name key with the inherited order). -/
def keyer (w : World) (toAssign : ℕ) (a : ℕ) : ℕ × ℕ :=
  (if w.satisfied a then 0 else if a = w.preferred toAssign then 1 else 2, w.name a)

/-- Python's tuple comparison on the sort keys, as a boolean preorder. -/
def keyLe (w : World) (toAssign : ℕ) (a b : ℕ) : Bool :=
  decide ((keyer w toAssign a).1 < (keyer w toAssign b).1) ||
    (decide ((keyer w toAssign a).1 = (keyer w toAssign b).1) &&
      decide ((keyer w toAssign a).2 ≤ (keyer w toAssign b).2))

/-- `list(graph.successors(u))`.  The adjacency iteration order of networkx
is its insertion order, which the executor never relies on; we enumerate
canonically in ascending id order. -/
def successorsList (g : DiGraph) (u : ℕ) : List ℕ :=
  ascList (g.succs u)

/-- `alternatives = list(graph.successors(to_assign));
alternatives.sort(key=keyer(to_assign))`. -/
def sortedAlternatives (w : World) (g : DiGraph) (toAssign : ℕ) : List ℕ :=
  sortStable (keyLe w toAssign) (successorsList g toAssign)

/-! ### Cycle and choice predicates -/

/-- `has_unsatisfied_cycles(graph)`: some simple cycle contains an action
whose `is_satisfied()` is false.  A node lies on a simple cycle iff one of
its out-edges starts a path back to it, which is the criterion used here. -/
def has_unsatisfied_cycles (w : World) (g : DiGraph) : Bool :=
  decide (∃ u ∈ g.nodes, w.satisfied u = false ∧
    ∃ e ∈ g.edges, e.1 = u ∧ reachesB g e.2 u = true)

/-- `has_choices(graph)`: some `AnyOfAction` node still has more than one
outgoing alternative edge. -/
def has_choices (w : World) (g : DiGraph) : Bool :=
  decide (∃ u ∈ g.nodes, w.isChoice u = true ∧ 1 < (g.succs u).card)

/-- `filter_out_unreachable(graph, nodes, roots)`: split `nodes` into the
(reachable, unreachable) sublists, preserving order. -/
def filter_out_unreachable (g : DiGraph) (ns : List ℕ) (roots : List ℕ) :
    List ℕ × List ℕ :=
  (ns.filter (fun n => reachesAnyB g roots n),
   ns.filter (fun n => !reachesAnyB g roots n))

/-- `graph.remove_edges_from((to_assign, s) for s in alternatives)`. -/
def removeEdgesFrom (g : DiGraph) (u : ℕ) (alts : List ℕ) : DiGraph :=
  alts.foldl (fun h a => h.removeEdge u a) g

/-! ### The backtracking choice assignment
(`Executor._assign_strongly_connected_component`)

The Python procedure mutates `graph` and `remaining` and restores them on
failure.  The embedding threads that state explicitly: each call returns
`(result, graph after the call, remaining after the call)`.  `fuel` bounds the
recursion depth; the Python recursion terminates because each level pops one
node off `remaining`, and any `fuel ≥ remaining.length` behaves identically. -/

/-- The `for alternative in alternatives` loop of
`_assign_strongly_connected_component`: retain only this alternative's edge,
temporarily exclude the choices that became unreachable, recurse (`recur` is
the recursive call on the remaining choices); on failure restore the edge and
the excluded choices and try the next alternative. -/
def assignLoop (recur : DiGraph → List ℕ → Option DiGraph × DiGraph × List ℕ) :
    List ℕ → ℕ → DiGraph → List ℕ → Option DiGraph × DiGraph × List ℕ
  | [], _, g, rem => (none, g, rem)
  | a :: rest, toAssign, g, rem =>
    let gA := g.addEdge toAssign a
    let pr := filter_out_unreachable gA rem [ROOT]
    match recur gA pr.1 with
    | (some solved, g1, rem1) => (some solved, g1, rem1)
    | (none, g1, rem1) =>
      assignLoop recur rest toAssign (g1.removeEdge toAssign a) (rem1 ++ pr.2)

def assignSCC (w : World) :
    ℕ → DiGraph → List ℕ → Finset ℕ → Option DiGraph × DiGraph × List ℕ
  | 0, g, rem, _ => (none, g, rem)
  | fuel + 1, g, remaining, scc =>
    match remaining.getLast? with
    | none =>
      let sub := (g.remove_unreachable [ROOT]).inducedSub scc
      (if has_unsatisfied_cycles w sub then none else some g, g, remaining)
    | some toAssign =>
      let rem0 := remaining.dropLast
      let alts := sortedAlternatives w g toAssign
      let g0 := removeEdgesFrom g toAssign alts
      match assignLoop (fun g' r' => assignSCC w fuel g' r' scc) alts toAssign g0 rem0 with
      | (some solved, g1, rem1) => (some solved, g1, rem1)
      | (none, g1, rem1) =>
        (none, g1.addEdges (alts.map (fun a => (toAssign, a))), rem1 ++ [toAssign])

/-! ### Strongly connected components -/

/-- The strongly connected component of `u`: all nodes mutually reachable
with `u`. -/
def sccClass (g : DiGraph) (u : ℕ) : Finset ℕ :=
  g.nodes.filter (fun v => reachesB g u v && reachesB g v u)

/-- `nx.algorithms.strongly_connected_components(graph)` yields each SCC once,
in an unspecified order; we enumerate canonically by ascending least member. -/
def sccList (g : DiGraph) : List (Finset ℕ) :=
  ((ascList g.nodes).map (fun u => sccClass g u)).dedup

/-- `strongly_connected_components.sort(key=len, reverse=True)`:
stable descending sort by size. -/
def sccListSorted (g : DiGraph) : List (Finset ℕ) :=
  sortStable (fun a b => decide (b.card ≤ a.card)) (sccList g)

/-- The unresolved choice nodes of one SCC (`any_of_nodes` in
`_assign_choices`); set iteration order is unspecified in Python, enumerated
canonically ascending. -/
def anyOfNodesIn (w : World) (g : DiGraph) (scc : Finset ℕ) : List ℕ :=
  (ascList scc).filter (fun c => w.isChoice c && decide (1 < (g.succs c).card))

/-- `Executor._assign_choices(graph)`.  Result: `none` when `fuel` ran out
(an artifact of the embedding; the Python loop makes progress every
iteration), `some none` for resolution failure (the caller raises a
user-facing `UserException`), `some (some g)` for success. -/
def assign_choices (w : World) : ℕ → ℕ → DiGraph → Option (Option DiGraph)
  | 0, _, _ => none
  | fuel + 1, fuelS, g =>
    if has_choices w g then
      match (sccListSorted g).find? (fun scc => !(anyOfNodesIn w g scc).isEmpty) with
      | none => assign_choices w fuel fuelS g
      | some scc =>
        match assignSCC w fuelS g (anyOfNodesIn w g scc) scc with
        | (none, _, _) => some none
        | (some g', _, _) => assign_choices w fuel fuelS g'
    else some (some g)

/-! ### Satisfied attracting components
(`Executor._remove_satisfied_attracting_components`) -/

/-- No edge leaves the set `s` (so an SCC `s` with this property is an
attracting component in the sense of `nx.attracting_components`). -/
def isClosedB (g : DiGraph) (s : Finset ℕ) : Bool :=
  decide (∀ e ∈ g.edges, e.1 ∈ s → e.2 ∈ s)

/-- The first attracting component all of whose members are satisfied
(the component the `for`/`break` in the Python loop removes next). -/
def findSatisfiedAttracting (w : World) (g : DiGraph) : Option (Finset ℕ) :=
  (sccList g).find? (fun s => isClosedB g s && decide (∀ u ∈ s, w.satisfied u = true))

def removeSatisfiedAttractingAux (w : World) : ℕ → DiGraph → DiGraph
  | 0, g => g
  | fuel + 1, g =>
    match findSatisfiedAttracting w g with
    | none => g
    | some s => removeSatisfiedAttractingAux w fuel (g.removeNodes s)

/-- `Executor._remove_satisfied_attracting_components(graph)`: repeatedly
delete all-satisfied attracting components until none remains.  Each deleted
component is nonempty, so `g.nodes.card + 1` rounds always reach the fixed
point. -/
def remove_satisfied_attracting_components (w : World) (g : DiGraph) : DiGraph :=
  removeSatisfiedAttractingAux w (g.nodes.card + 1) g

/-- Lines 124–130 of `executor.py`: record the true roots (the successors of
the dummy root), drop the dummy root, prune satisfied attracting components,
and re-add the true roots unless `no_force` was requested. -/
def dropRootAndPrune (w : World) (noForce : Bool) (g : DiGraph) : DiGraph :=
  let trueRoots := g.succs ROOT
  let g1 := g.removeNode ROOT
  let g2 := remove_satisfied_attracting_components w g1
  if noForce then g2 else g2.addNodes trueRoots

/-! ### Transitive reduction (`Executor._transitive_reduction`) -/

/-- `nx.algorithms.dag.transitive_reduction` (callers guarantee a DAG): keep
edge `(u, v)` iff no other out-neighbour `w` of `u` reaches `v`. -/
def tred (g : DiGraph) : DiGraph :=
  ⟨g.nodes, g.edges.filter (fun e =>
    ∀ f ∈ g.edges, f.1 = e.1 → f.2 ≠ e.2 → reachesB g f.2 e.2 = false)⟩

/-- The representative of `u`'s SCC (its least member).  `nx.condensation`
numbers SCCs with opaque integers; any injective choice of names is an
equivalent embedding. -/
def sccRep (g : DiGraph) (u : ℕ) : ℕ :=
  if h : (sccClass g u).Nonempty then (sccClass g u).min' h else u

/-- `nx.algorithms.condensation(graph)`: one node per SCC, an edge between
two distinct SCCs iff some original edge joins them. -/
def condense (g : DiGraph) : DiGraph :=
  ⟨g.nodes.image (sccRep g),
   (g.edges.filter (fun e => sccRep g e.1 ≠ sccRep g e.2)).image
     (fun e => (sccRep g e.1, sccRep g e.2))⟩

/-- The re-expansion loop of `_transitive_reduction`: the union of all
intra-SCC subgraphs, plus each original inter-SCC edge whose condensed image
was retained by the condensed reduction `rc`. -/
def inflate (g : DiGraph) (rc : DiGraph) : DiGraph :=
  ⟨g.nodes, g.edges.filter (fun e =>
    sccRep g e.1 = sccRep g e.2 ∨ (sccRep g e.1, sccRep g e.2) ∈ rc.edges)⟩

/-- `Executor._transitive_reduction(graph)`. -/
def transitive_reduction (g : DiGraph) : DiGraph :=
  if isAcyclicB g then tred g else inflate g (tred (condense g))

/-! ### Intra-component ordering
(`Executor._enforce_intra_component_ordering`) -/

/-- `isinstance(a1, ActionForBuild) and isinstance(a2, ActionForBuild) and
a1.build is a2.build` (a `Build` belongs to exactly one component, so build
identity is the `(component, build)` pair). -/
def sameBuild (w : World) (a b : ℕ) : Bool :=
  match w.buildTag a, w.buildTag b with
  | some t1, some t2 => decide (t1 = t2)
  | _, _ => false

/-- The builds of component `c` scheduled in the graph
(`scheduled_builds_per_component[c]`). -/
def buildsOf (w : World) (g : DiGraph) (c : ℕ) : Finset ℕ :=
  g.nodes.biUnion (fun a =>
    match w.buildTag a with
    | some t => if t.1 = c then {t.2} else ∅
    | none => ∅)

/-- All components with a scheduled `ActionForBuild`. -/
def componentsIn (w : World) (g : DiGraph) : Finset ℕ :=
  g.nodes.biUnion (fun a =>
    match w.buildTag a with
    | some t => {t.1}
    | none => ∅)

/-- The components processed by the ordering pass (those with at least two
scheduled builds); dict iteration order is first-insertion order in Python,
enumerated canonically ascending. -/
def componentsWithMultipleBuilds (w : World) (g : DiGraph) : List ℕ :=
  ascList ((componentsIn w g).filter (fun c => 2 ≤ (buildsOf w g c).card))

/-- The group of build `(c, b)`: its own actions plus their direct
predecessors in the dependency graph. -/
def buildGroup (w : World) (g : DiGraph) (c b : ℕ) : Finset ℕ :=
  g.nodes.filter (fun a => w.buildTag a = some (c, b)) ∪
    (g.edges.filter (fun e => w.buildTag e.2 = some (c, b))).image Prod.fst

/-- `groups_by_component[c]` (set iteration order enumerated canonically by
ascending build id). -/
def groupsFor (w : World) (g : DiGraph) (c : ℕ) : List (Finset ℕ) :=
  (ascList (buildsOf w g c)).map (fun b => buildGroup w g c b)

/-- All ways of picking one element out of a list, each with the remainder,
in order of the picked position. -/
def picks {α : Type*} : List α → List (α × List α)
  | [] => []
  | x :: xs => (x, xs) :: (picks xs).map (fun p => (p.1, x :: p.2))

def permsLexAux {α : Type*} : ℕ → List α → List (List α)
  | 0, _ => [[]]
  | n + 1, l => (picks l).flatMap (fun p => (permsLexAux n p.2).map (fun q => p.1 :: q))

/-- `itertools.permutations(l)`: all permutations, in lexicographic order of
the picked positions. -/
def permsLex {α : Type*} (l : List α) : List (List α) :=
  permsLexAux l.length l

/-- The ordering edges added between one consecutive pair of groups: every
pair `(a1, a2)` except self-loops and pairs within one build. -/
def crossEdges (w : World) (s t : Finset ℕ) : Finset (ℕ × ℕ) :=
  (s ×ˢ t).filter (fun e => e.1 ≠ e.2 ∧ sameBuild w e.1 e.2 = false)

/-- Add the ordering edges of one permutation of the groups (the inner loops
of `_try_group_orders`; the `label="Intra-component ordering"` marker does
not affect the graph structure). -/
def addGroupEdges (w : World) (g : DiGraph) (perm : List (Finset ℕ)) : DiGraph :=
  (perm.zip perm.tail).foldl (fun h pq =>
    ⟨h.nodes ∪ (crossEdges w pq.1 pq.2).image Prod.fst ∪
       (crossEdges w pq.1 pq.2).image Prod.snd,
     h.edges ∪ crossEdges w pq.1 pq.2⟩) g

/-- `Executor._try_group_orders(dependency_graph, group)`: the graph built
from the first permutation without a cycle through an unsatisfied action,
else `none`. -/
def tryGroupOrders (w : World) (g : DiGraph) (groups : List (Finset ℕ)) :
    Option DiGraph :=
  ((permsLex groups).find? (fun p => !has_unsatisfied_cycles w (addGroupEdges w g p))).map
    (fun p => addGroupEdges w g p)

/-- `Executor._enforce_intra_component_ordering(dependency_graph)`:
`none` models raising the user-facing ordering `UserException`.  The groups
are computed on the input graph, before any ordering edges are added, exactly
as in the source. -/
def enforce_intra_component_ordering (w : World) (g : DiGraph) : Option DiGraph :=
  (componentsWithMultipleBuilds w g).foldl
    (fun acc c => acc.bind (fun h => tryGroupOrders w h (groupsFor w g c))) (some g)

/-! ### The graph builder (`Executor._create_initial_dependency_graph`) -/

/-- The `for dependency in action.dependencies` loop of
`_collect_dependencies`: add the edge, recurse into the dependency. -/
def collectList (recur : ℕ → Finset ℕ → DiGraph → Finset ℕ × DiGraph) (a : ℕ) :
    List ℕ → Finset ℕ → DiGraph → Finset ℕ × DiGraph
  | [], visited, g => (visited, g)
  | d :: ds, visited, g =>
    let st := recur d visited (g.addEdge a d)
    collectList recur a ds st.1 st.2

/-- `Executor._collect_dependencies(action, graph, already_visited_nodes)`.
`fuel` bounds the recursion depth (the Python recursion terminates because
the visited set grows; any fuel above the number of distinct actions behaves
identically). -/
def collect_dependencies (w : World) (noDeps : Bool) :
    ℕ → ℕ → Finset ℕ → DiGraph → Finset ℕ × DiGraph
  | 0, _, visited, g => (visited, g)
  | fuel + 1, a, visited, g =>
    if a ∈ visited then (visited, g)
    else
      let v1 := insert a visited
      let g1 := g.addNode a
      if noDeps then (v1, g1)
      else collectList (fun d vv gg => collect_dependencies w noDeps fuel d vv gg)
        a (w.deps a) v1 g1

/-- `Executor._create_initial_dependency_graph()` (each requested action is
collected with a fresh `already_visited_nodes`, as in the source; `fuel`
bounds the recursion depth). -/
def create_initial_dependency_graph (w : World) (noDeps : Bool) (fuel : ℕ)
    (actions : List ℕ) : DiGraph :=
  actions.foldl (fun g a =>
    (collect_dependencies w noDeps fuel a ∅ (g.addEdge ROOT a)).2)
    ⟨{ROOT}, ∅⟩

/-! ### The scheduler (`Executor.run` / `Executor._run_action`)

The concurrent loop is embedded as a transition system.  One transition per
shared-state access of the Python code, with two linearisation choices: the
`_stop_the_world` test and the `action.run(...)` call of `_run_action` form
one event, and an action's `run` raising, the `except` clause setting
`_stop_the_world` and the future completing form one event.  Worker
completion order and the interleaving of the control loop with the workers
are nondeterministic, as in reality. -/

structure Exec where
  graph : DiGraph
  requested : Finset ℕ
  pretendFlag : Bool
  outcome : ℕ → Bool

structure SchedState where
  done : Finset ℕ
  submitted : Finset ℕ
  queued : Finset ℕ
  running : Finset ℕ
  completedOk : Finset ℕ
  completedErr : Finset ℕ
  cancelled : Finset ℕ
  cancelledEver : Finset ℕ
  failed : List ℕ
  stop : Bool
  ranBody : Finset ℕ
  skipped : Finset ℕ
  invocations : List (ℕ × Bool × Bool)
deriving DecidableEq

def initState : SchedState :=
  ⟨∅, ∅, ∅, ∅, ∅, ∅, ∅, ∅, [], false, ∅, ∅, []⟩

inductive SEvent where
  | submit (u : ℕ)
  | startRun (u : ℕ)
  | startSkip (u : ℕ)
  | finishOk (u : ℕ)
  | finishErr (u : ℕ)
  | procOk (u : ℕ)
  | procErr (u : ℕ)
  | procCancelled (u : ℕ)
deriving DecidableEq

/-- The futures currently held in `self._queued_actions`. -/
def queuedAll (s : SchedState) : Finset ℕ :=
  s.queued ∪ s.running ∪ s.completedOk ∪ s.completedErr ∪ s.cancelled

/-- One transition of the scheduler.
* `submit u`: the loop submits a node returned by `get_ready()` — every
  graph successor (dependency) of `u` already marked done, `u` not yet
  handed out, and the `while` condition was observed to hold.
* `startRun u`: a worker picks up a queued future, sees
  `_stop_the_world == False` and invokes `action.run(pretend=...,
  explicitly_requested=action in self.actions)`.
* `startSkip u`: a worker picks up a queued future, sees
  `_stop_the_world == True` and returns without invoking `run`; the future
  completes without exception.
* `finishOk u` / `finishErr u`: an invoked `run` returns normally / raises
  (setting `_stop_the_world` before the future completes).
* `procOk u`: the loop processes a future that completed without exception:
  `self._toposorter.done(action)`.
* `procErr u`: the loop processes a future that completed with an exception:
  it cancels every not-yet-started queued future and appends the action to
  `_failed_actions`.
* `procCancelled u`: the loop processes a cancelled future (`continue`). -/
def step (E : Exec) (s : SchedState) : SEvent → Option SchedState
  | .submit u =>
    if u ∈ E.graph.nodes ∧ u ∉ s.submitted ∧ E.graph.succs u ⊆ s.done ∧
        ((s.failed = [] ∧ (E.graph.nodes \ s.done).Nonempty) ∨ (queuedAll s).Nonempty) then
      some { s with submitted := insert u s.submitted, queued := insert u s.queued }
    else none
  | .startRun u =>
    if u ∈ s.queued ∧ s.stop = false then
      some { s with queued := s.queued.erase u, running := insert u s.running,
                    ranBody := insert u s.ranBody,
                    invocations :=
                      s.invocations ++ [(u, E.pretendFlag, decide (u ∈ E.requested))] }
    else none
  | .startSkip u =>
    if u ∈ s.queued ∧ s.stop = true then
      some { s with queued := s.queued.erase u, completedOk := insert u s.completedOk,
                    skipped := insert u s.skipped }
    else none
  | .finishOk u =>
    if u ∈ s.running ∧ E.outcome u = true then
      some { s with running := s.running.erase u, completedOk := insert u s.completedOk }
    else none
  | .finishErr u =>
    if u ∈ s.running ∧ E.outcome u = false then
      some { s with running := s.running.erase u, completedErr := insert u s.completedErr,
                    stop := true }
    else none
  | .procOk u =>
    if u ∈ s.completedOk then
      some { s with completedOk := s.completedOk.erase u, done := insert u s.done }
    else none
  | .procErr u =>
    if u ∈ s.completedErr then
      some { s with completedErr := s.completedErr.erase u, failed := s.failed ++ [u],
                    cancelled := s.cancelled ∪ s.queued,
                    cancelledEver := s.cancelledEver ∪ s.queued,
                    queued := ∅ }
    else none
  | .procCancelled u =>
    if u ∈ s.cancelled then
      some { s with cancelled := s.cancelled.erase u }
    else none

def execTrace (E : Exec) : SchedState → List SEvent → Option SchedState
  | s, [] => some s
  | s, e :: es => (step E s e).bind (fun s' => execTrace E s' es)

/-- States the scheduler loop can actually be in. -/
def ReachableState (E : Exec) (s : SchedState) : Prop :=
  ∃ tr, execTrace E initState tr = some s

/-- The loop has exited: `self._queued_actions` is empty, and either the
toposorter is exhausted or a failure was recorded. -/
def Terminal (E : Exec) (s : SchedState) : Prop :=
  queuedAll s = ∅ ∧ (E.graph.nodes \ s.done = ∅ ∨ s.failed ≠ [])

/-- Modelled from the spec: `exceptions.py` (defining `UserException` and
`InternalException`) is not under `src/`; per §7 of the spec they are the two
distinct top-level error kinds, and action-level failures are returned as the
failed list rather than raised. -/
inductive ErrKind where
  | userErr
  | internalErr
deriving DecidableEq

/-- Whether `action.assert_prerequisites_are_met()` passes (the method body
lives outside `src/`; only its outcome matters to the executor). -/
def prereqsOk (pre : ℕ → Bool) (g : DiGraph) : Bool :=
  decide (∀ a ∈ g.nodes, pre a = true)

/-- The prologue of `Executor.run`: `_verify_prerequisites` (raising a
user-facing error on a failed prerequisite) followed by
`self._toposorter.prepare()`, whose `CycleError` is turned into an
`InternalException`. -/
def run_prologue (pre : ℕ → Bool) (g : DiGraph) : Except ErrKind Unit :=
  if prereqsOk pre g then
    if isAcyclicB g then Except.ok () else Except.error ErrKind.internalErr
  else Except.error ErrKind.userErr

/-- The arguments `_run_action` passes to `action.run`:
`pretend=self.pretend, explicitly_requested=(action in self.actions)`. -/
def run_action_args (requested : Finset ℕ) (pretendFlag : Bool) (a : ℕ) :
    Bool × Bool :=
  (pretendFlag, decide (a ∈ requested))

/-- Specification predicate: every choice node of the graph has at least one
outgoing alternative edge (true of every graph the resolver sees: a choice's
successors are its alternatives, and `AnyOfAction` holds a nonempty sequence
of alternatives). -/
def ChoicesNonempty (w : World) (g : DiGraph) : Prop :=
  ∀ c ∈ g.nodes, w.isChoice c = true → (DiGraph.succs g c).Nonempty

/-! ### Concrete instances used by witnesses and counterexamples -/

/-- A small cyclic graph (1 ⇄ 2, 1 → 3) exercising the condensation branch
of the transitive reduction. -/
def cycleExample : DiGraph :=
  ⟨{1, 2, 3}, {(1, 2), (2, 1), (1, 3)}⟩

/-- Two mutually-dependent unsatisfied plain actions (no choice nodes
anywhere), requested as `[1]`. -/
def noChoiceW : World :=
  ⟨fun _ => false, fun _ => false, fun _ => 0, fun n => n, fun _ => none,
   fun n => if n = 1 then [2] else if n = 2 then [1] else [], fun _ => true⟩

/-- The initial dependency graph of `noChoiceW`: `ROOT → 1 ⇄ 2`. -/
def noChoiceG : DiGraph :=
  create_initial_dependency_graph noChoiceW false 5 [1]

/-- Node 1 is a choice with alternatives 2 (unsatisfied, the preferred one)
and 3 (satisfied). -/
def choiceW : World :=
  ⟨fun n => decide (n = 3), fun n => decide (n = 1), fun _ => 2, fun n => n,
   fun _ => none, fun _ => [], fun _ => true⟩

/-- Choice scenario (i): no cycles; the satisfied alternative 3 works. -/
def choiceSatG : DiGraph :=
  ⟨{0, 1, 2, 3}, {(0, 1), (1, 2), (1, 3)}⟩

/-- Choice scenario (ii): retaining the satisfied alternative 3 closes an
unsatisfied cycle `1 → 3 → 1`, so the resolver must fall back to 2. -/
def choiceCycleG : DiGraph :=
  ⟨{0, 1, 2, 3}, {(0, 1), (1, 2), (1, 3), (3, 1)}⟩

/-- Choice scenario (iii): both alternatives close unsatisfied cycles;
resolution must fail. -/
def choiceBlockedG : DiGraph :=
  ⟨{0, 1, 2, 3}, {(0, 1), (1, 2), (1, 3), (3, 1), (2, 1)}⟩

/-- A world with three choice nodes 1, 2, 3 (preferred alternatives 4, 6, 8),
all actions unsatisfied. -/
def backtrackW : World :=
  ⟨fun _ => false, fun n => decide (n = 1 ∨ n = 2 ∨ n = 3),
   fun n => if n = 1 then 4 else if n = 2 then 6 else 8, fun n => n,
   fun _ => none, fun _ => [], fun _ => true⟩

/-- A strongly connected web of choices in which every assignment leaves an
unsatisfied cycle, so the backtracking procedure exhausts all alternatives.
Node 2 is reachable from the root only through alternative 4 of choice 1. -/
def backtrackG : DiGraph :=
  ⟨{0, 1, 2, 3, 4, 5, 6, 7, 8, 9},
   {(0, 1), (1, 4), (1, 5), (4, 2), (4, 3), (5, 3), (2, 6), (2, 7), (3, 8),
    (3, 9), (6, 1), (7, 1), (8, 1), (9, 1)}⟩

/-- The strongly connected component of `backtrackG` containing its choices. -/
def backtrackSCC : Finset ℕ :=
  {1, 2, 3, 4, 5, 6, 7, 8, 9}

/-- Only action 2 is satisfied. -/
def satW : World :=
  ⟨fun n => decide (n = 2), fun _ => false, fun _ => 0, fun n => n,
   fun _ => none, fun _ => [], fun _ => true⟩

/-- `ROOT → 1 → 2`: after dropping the root, 2 is a satisfied attracting
(sink) component and 1 is an unsatisfied one. -/
def satG : DiGraph :=
  ⟨{0, 1, 2}, {(0, 1), (1, 2)}⟩

/-- Two scheduled builds (7, 1) and (7, 2) of component 7, carried by the
mutually-dependent unsatisfied actions 1 and 2. -/
def ordW : World :=
  ⟨fun _ => false, fun _ => false, fun _ => 0, fun n => n,
   fun n => if n = 1 then some (7, 1) else if n = 2 then some (7, 2) else none,
   fun _ => [], fun _ => true⟩

/-- The unsatisfied cycle `1 ⇄ 2` survives every group permutation, so the
ordering pass must fail. -/
def ordG : DiGraph :=
  ⟨{1, 2}, {(1, 2), (2, 1)}⟩

/-- Scheduler instance: independent actions 1 (whose run raises) and 2, a
chain 4 → 3 → 2 of dependents of 2; everything explicitly requested. -/
def schedE : Exec :=
  ⟨⟨{1, 2, 3, 4}, {(3, 2), (4, 3)}⟩, {1, 2, 3, 4}, false, fun n => decide (n ≠ 1)⟩

/-- A real interleaving: 1 and 2 are submitted and started, 2 finishes and
is processed, then 1's run raises (the first action failure — the future
completes with the exception not yet processed by the control loop). -/
def failTrace : List SEvent :=
  [SEvent.submit 1, SEvent.submit 2, SEvent.startRun 1, SEvent.startRun 2,
   SEvent.finishOk 2, SEvent.procOk 2, SEvent.finishErr 1]

/-- Continuation of `failTrace`: the loop (not yet having processed 1's
failed future) submits the now-ready action 3, whose worker sees
`_stop_the_world` and completes without running; the loop marks 3 done,
which readies and submits 4. -/
def skipTrace : List SEvent :=
  failTrace ++ [SEvent.submit 3, SEvent.startSkip 3, SEvent.procOk 3, SEvent.submit 4]

/-- A one-action scheduler instance that runs to successful completion. -/
def okE : Exec :=
  ⟨⟨{5}, ∅⟩, {5}, false, fun _ => true⟩

/-- The complete successful run of `okE`. -/
def okTrace : List SEvent :=
  [SEvent.submit 5, SEvent.startRun 5, SEvent.finishOk 5, SEvent.procOk 5]

/-- The terminal state of `okE` after `okTrace`. -/
def okFinal : SchedState :=
  ⟨{5}, {5}, ∅, ∅, ∅, ∅, ∅, ∅, [], false, {5}, ∅, [(5, false, true)]⟩

/-- The state of `schedE` after `failTrace` (1's failure has occurred). -/
def failState : SchedState :=
  (execTrace schedE initState failTrace).getD initState

/-- The state of `schedE` after `skipTrace`. -/
def skipState : SchedState :=
  (execTrace schedE initState skipTrace).getD initState

/-- Action 2 is a dependency of action 1 and is also explicitly requested. -/
def depW : World :=
  ⟨fun _ => false, fun _ => false, fun _ => 0, fun n => n, fun _ => none,
   fun n => if n = 1 then [2] else [], fun _ => true⟩

/-- The initial dependency graph of `depW` with requested actions `[1, 2]`:
node 2 is discovered by the dependency expansion of 1 (edge `1 → 2`). -/
def depG : DiGraph :=
  create_initial_dependency_graph depW false 5 [1, 2]

/-- Scheduler instance over `depG`; both 1 and 2 are in `self.actions`. -/
def depE : Exec :=
  ⟨depG, {1, 2}, false, fun _ => true⟩

/-- The state of `depE` after submitting and starting action 2. -/
def depState : SchedState :=
  (execTrace depE initState [SEvent.submit 2, SEvent.startRun 2]).getD initState

/-- The graph returned by the choice resolver on `choiceSatG` (choice 1 keeps
its satisfied alternative 3 only). -/
def choiceSatRes : DiGraph :=
  ((assign_choices choiceW 3 5 choiceSatG).getD none).getD choiceSatG

/-- The inductive invariant of the scheduler loop. -/
structure Inv (E : Exec) (s : SchedState) : Prop where
  ranBody_sub : s.ranBody ⊆ s.submitted
  cancelled_sub : s.cancelledEver ⊆ s.submitted
  queued_sub : s.queued ⊆ s.submitted
  cancelled_ever_sub : s.cancelled ⊆ s.cancelledEver
  queued_ranBody : Disjoint s.queued s.ranBody
  queued_cancelled : Disjoint s.queued s.cancelledEver
  ranBody_cancelled : Disjoint s.ranBody s.cancelledEver
  deps_done : ∀ u ∈ s.submitted, DiGraph.succs E.graph u ⊆ s.done
  done_ran : s.done ⊆ s.ranBody.filter (fun u => E.outcome u = true) ∪ s.skipped
  completedOk_ran : s.completedOk ⊆ s.ranBody.filter (fun u => E.outcome u = true) ∪ s.skipped
  skipped_stop : s.skipped.Nonempty → s.stop = true
  stop_failure : s.stop = true →
    (s.running.filter (fun u => E.outcome u = false)).Nonempty ∨
      s.completedErr.Nonempty ∨ s.failed ≠ []
  failed_ran : s.failed.toFinset ⊆ s.ranBody.filter (fun u => E.outcome u = false)
  completedErr_ran : s.completedErr ⊆ s.ranBody.filter (fun u => E.outcome u = false)
  running_ran : s.running ⊆ s.ranBody
  failures_tracked : s.ranBody.filter (fun u => E.outcome u = false) ⊆
    s.failed.toFinset ∪ s.completedErr ∪ s.running
  cancelled_failed : s.cancelledEver.Nonempty → s.failed ≠ []
  submitted_tracked : s.submitted ⊆
    queuedAll s ∪ s.done ∪ s.failed.toFinset ∪ s.cancelledEver
  invocations_ok : ∀ t ∈ s.invocations,
    t.2.1 = E.pretendFlag ∧ t.2.2 = decide (t.1 ∈ E.requested)

/-! ## Theorems -/

namespace DiGraph

theorem mem_nextSet {g : DiGraph} {s : Finset ℕ} {v : ℕ} :
    v ∈ nextSet g s ↔ v ∈ s ∨ ∃ u ∈ s, (u, v) ∈ g.edges := by
  simp only [nextSet, Finset.mem_union, Finset.mem_image, Finset.mem_filter]
  constructor
  · rintro (h | ⟨⟨a, b⟩, ⟨hab, ha⟩, rfl⟩)
    · exact Or.inl h
    · exact Or.inr ⟨a, ha, hab⟩
  · rintro (h | ⟨u, hu, huv⟩)
    · exact Or.inl h
    · exact Or.inr ⟨(u, v), ⟨huv, hu⟩, rfl⟩

theorem subset_nextSet (g : DiGraph) (s : Finset ℕ) : s ⊆ nextSet g s :=
  Finset.subset_union_left

theorem iterate_nextSet_subset_succ (g : DiGraph) (s : Finset ℕ) (n : ℕ) :
    (nextSet g)^[n] s ⊆ (nextSet g)^[n + 1] s := by
  rw [Function.iterate_succ_apply']
  exact subset_nextSet _ _

theorem iterate_nextSet_mono (g : DiGraph) (s : Finset ℕ) {m n : ℕ} (h : m ≤ n) :
    (nextSet g)^[m] s ⊆ (nextSet g)^[n] s := by
  induction n with
  | zero =>
    have hm0 : m = 0 := Nat.le_zero.mp h
    subst hm0
    exact Finset.Subset.refl _
  | succ n ih =>
    rcases Nat.lt_or_ge m (n + 1) with hlt | hge
    · exact (ih (Nat.lt_succ_iff.mp hlt)).trans (iterate_nextSet_subset_succ g s n)
    · have : m = n + 1 := le_antisymm h hge
      subst this
      exact Finset.Subset.refl _

theorem mem_iterate_reaches {g : DiGraph} {u v : ℕ} {n : ℕ}
    (h : v ∈ (nextSet g)^[n] {u}) : Reaches g u v := by
  induction n generalizing v with
  | zero =>
    simp only [Function.iterate_zero_apply, Finset.mem_singleton] at h
    exact h ▸ Relation.ReflTransGen.refl
  | succ n ih =>
    rw [Function.iterate_succ_apply'] at h
    rcases mem_nextSet.mp h with h' | ⟨x, hx, hxv⟩
    · exact ih h'
    · exact Relation.ReflTransGen.tail (ih hx) hxv

theorem iterate_nextSet_subset_insert {g : DiGraph} (hwf : WF g) (u : ℕ) :
    ∀ n, (nextSet g)^[n] {u} ⊆ insert u g.nodes := by
  intro n
  induction n with
  | zero => simp
  | succ n ih =>
    rw [Function.iterate_succ_apply']
    intro v hv
    rcases mem_nextSet.mp hv with h | ⟨x, _, hxv⟩
    · exact ih h
    · exact Finset.mem_insert_of_mem (hwf _ hxv).2

theorem card_iterate_ge {g : DiGraph} (u : ℕ) :
    ∀ i, (∀ j < i, (nextSet g)^[j + 1] {u} ≠ (nextSet g)^[j] {u}) →
      i + 1 ≤ ((nextSet g)^[i] {u}).card := by
  intro i
  induction i with
  | zero => simp
  | succ i ih =>
    intro h
    have h1 : i + 1 ≤ ((nextSet g)^[i] {u}).card :=
      ih (fun j hj => h j (Nat.lt_succ_of_lt hj))
    have hne : (nextSet g)^[i + 1] {u} ≠ (nextSet g)^[i] {u} :=
      h i (Nat.lt_succ_self i)
    have hss : (nextSet g)^[i] {u} ⊂ (nextSet g)^[i + 1] {u} :=
      (Finset.ssubset_iff_of_subset (iterate_nextSet_subset_succ g {u} i)).mpr (by
        rcases Finset.exists_of_ssubset
          (lt_of_le_of_ne (iterate_nextSet_subset_succ g {u} i) (Ne.symm hne)) with ⟨x, hx1, hx2⟩
        exact ⟨x, hx1, hx2⟩)
    exact le_trans (Nat.succ_le_succ h1) (Finset.card_lt_card hss)

theorem exists_stable_iterate {g : DiGraph} (hwf : WF g) (u : ℕ) :
    ∃ i ≤ g.nodes.card, (nextSet g)^[i + 1] {u} = (nextSet g)^[i] {u} := by
  by_contra hcon
  push_neg at hcon
  have h1 : g.nodes.card + 2 ≤ ((nextSet g)^[g.nodes.card + 1] {u}).card := by
    refine card_iterate_ge u (g.nodes.card + 1) (fun j hj => ?_)
    exact hcon j (Nat.lt_succ_iff.mp hj)
  have h2 : ((nextSet g)^[g.nodes.card + 1] {u}).card ≤ g.nodes.card + 1 := by
    calc ((nextSet g)^[g.nodes.card + 1] {u}).card
        ≤ (insert u g.nodes).card :=
          Finset.card_le_card (iterate_nextSet_subset_insert hwf u _)
      _ ≤ g.nodes.card + 1 := Finset.card_insert_le _ _
  omega

theorem iterate_stable_from {g : DiGraph} {u : ℕ} {i : ℕ}
    (h : (nextSet g)^[i + 1] {u} = (nextSet g)^[i] {u}) :
    ∀ j, i ≤ j → (nextSet g)^[j] {u} = (nextSet g)^[i] {u} := by
  intro j hj
  induction j with
  | zero =>
    have hi0 : i = 0 := Nat.le_zero.mp hj
    subst hi0
    rfl
  | succ j ih =>
    rcases Nat.lt_or_ge i (j + 1) with hlt | hge
    · have hij : i ≤ j := Nat.lt_succ_iff.mp hlt
      rw [Function.iterate_succ_apply', ih hij]
      exact (Function.iterate_succ_apply' _ _ _).symm.trans h
    · exact le_antisymm hj hge ▸ rfl

theorem nextSet_reachSet {g : DiGraph} (hwf : WF g) (u : ℕ) :
    nextSet g (reachSet g u) = reachSet g u := by
  obtain ⟨i, hi, hstab⟩ := exists_stable_iterate hwf u
  unfold reachSet
  have h1 := iterate_stable_from hstab g.nodes.card hi
  have h2 := iterate_stable_from hstab (g.nodes.card + 1) (le_trans hi (Nat.le_succ _))
  calc nextSet g ((nextSet g)^[g.nodes.card] {u})
      = (nextSet g)^[g.nodes.card + 1] {u} := (Function.iterate_succ_apply' _ _ _).symm
    _ = (nextSet g)^[i] {u} := h2
    _ = (nextSet g)^[g.nodes.card] {u} := h1.symm

theorem mem_reachSet_self (g : DiGraph) (u : ℕ) : u ∈ reachSet g u :=
  iterate_nextSet_mono g {u} (Nat.zero_le _) (by simp)

theorem reachesB_refl (g : DiGraph) (u : ℕ) : reachesB g u u = true := by
  simp [reachesB, mem_reachSet_self]

theorem reachesB_iff {g : DiGraph} (hwf : WF g) {u v : ℕ} :
    reachesB g u v = true ↔ Reaches g u v := by
  constructor
  · intro h
    exact mem_iterate_reaches (by simpa [reachesB, reachSet] using h)
  · intro h
    simp only [reachesB, decide_eq_true_eq]
    induction h with
    | refl => exact mem_reachSet_self g u
    | tail _ h2 ih =>
      rw [← nextSet_reachSet hwf u]
      exact mem_nextSet.mpr (Or.inr ⟨_, ih, h2⟩)

theorem reaches_mono {g g' : DiGraph} (h : g.edges ⊆ g'.edges) {u v : ℕ}
    (hr : Reaches g u v) : Reaches g' u v :=
  Relation.ReflTransGen.mono (fun _ _ hab => h hab) hr

theorem isAcyclicB_iff {g : DiGraph} (hwf : WF g) :
    isAcyclicB g = true ↔ Acyclic g := by
  simp only [isAcyclicB, decide_eq_true_eq, Acyclic]
  constructor
  · intro h u v huv hr
    have := h (u, v) huv
    rw [← Bool.not_eq_true, (reachesB_iff hwf)] at this
    exact this hr
  · intro h e he
    rw [← Bool.not_eq_true, (reachesB_iff hwf)]
    exact h e.1 e.2 he

theorem reaches_source_mem {g : DiGraph} (hwf : WF g) {a b : ℕ}
    (h : Reaches g a b) (hne : a ≠ b) : a ∈ g.nodes := by
  rcases h.cases_head with rfl | ⟨z, hz, _⟩
  · exact absurd rfl hne
  · exact (hwf _ hz).1

theorem reaches_target_mem {g : DiGraph} (hwf : WF g) {a b : ℕ}
    (h : Reaches g a b) (hne : a ≠ b) : b ∈ g.nodes := by
  induction h with
  | refl => exact absurd rfl hne
  | tail _ h2 _ => exact (hwf _ h2).2

theorem acyclic_antisymm {g : DiGraph} (hac : Acyclic g) {x y : ℕ}
    (hxy : Reaches g x y) (hyx : Reaches g y x) : x = y := by
  by_contra hne
  rcases hxy.cases_head with rfl | ⟨z, hz, hzy⟩
  · exact hne rfl
  · exact hac x z hz (hzy.trans hyx)

theorem tred_edges_subset (g : DiGraph) : (tred g).edges ⊆ g.edges :=
  Finset.filter_subset _ _

theorem tred_nodes (g : DiGraph) : (tred g).nodes = g.nodes := rfl

theorem tred_wf {g : DiGraph} (hwf : WF g) : WF (tred g) := by
  intro e he
  exact hwf e (tred_edges_subset g he)

theorem mem_tred_edges {g : DiGraph} {e : ℕ × ℕ} :
    e ∈ (tred g).edges ↔ e ∈ g.edges ∧
      ∀ f ∈ g.edges, f.1 = e.1 → f.2 ≠ e.2 → reachesB g f.2 e.2 = false :=
  Finset.mem_filter

theorem interval_ssubset_left {g : DiGraph} (hwf : WF g) (hac : Acyclic g)
    {u w v : ℕ} (_huw : (u, w) ∈ g.edges) (hwv : Reaches g w v) (hne : w ≠ v)
    (huv : Reaches g u v) :
    g.nodes.filter (fun t => reachesB g u t && reachesB g t w) ⊂
      g.nodes.filter (fun t => reachesB g u t && reachesB g t v) := by
  have hvn : v ∈ g.nodes := reaches_target_mem hwf hwv hne
  constructor
  · intro t ht
    simp only [Finset.mem_filter, Bool.and_eq_true, reachesB_iff hwf] at ht ⊢
    exact ⟨ht.1, ht.2.1, ht.2.2.trans hwv⟩
  · intro hsub
    have hv : v ∈ g.nodes.filter (fun t => reachesB g u t && reachesB g t v) := by
      simp only [Finset.mem_filter, Bool.and_eq_true, reachesB_iff hwf]
      exact ⟨hvn, huv, Relation.ReflTransGen.refl⟩
    have := hsub hv
    simp only [Finset.mem_filter, Bool.and_eq_true, reachesB_iff hwf] at this
    exact hne (acyclic_antisymm hac hwv this.2.2)

theorem interval_ssubset_right {g : DiGraph} (hwf : WF g) (hac : Acyclic g)
    {u w v : ℕ} (huw : (u, w) ∈ g.edges) (hwv : Reaches g w v) :
    g.nodes.filter (fun t => reachesB g w t && reachesB g t v) ⊂
      g.nodes.filter (fun t => reachesB g u t && reachesB g t v) := by
  have hun : u ∈ g.nodes := (hwf _ huw).1
  constructor
  · intro t ht
    simp only [Finset.mem_filter, Bool.and_eq_true, reachesB_iff hwf] at ht ⊢
    exact ⟨ht.1, (Relation.ReflTransGen.single huw).trans ht.2.1, ht.2.2⟩
  · intro hsub
    have hu : u ∈ g.nodes.filter (fun t => reachesB g u t && reachesB g t v) := by
      simp only [Finset.mem_filter, Bool.and_eq_true, reachesB_iff hwf]
      exact ⟨hun, Relation.ReflTransGen.refl, (Relation.ReflTransGen.single huw).trans hwv⟩
    have := hsub hu
    simp only [Finset.mem_filter, Bool.and_eq_true, reachesB_iff hwf] at this
    exact hac u w huw this.2.1

theorem reaches_tred_of_reaches {g : DiGraph} (hwf : WF g) (hac : Acyclic g) :
    ∀ n u v, (g.nodes.filter (fun t => reachesB g u t && reachesB g t v)).card ≤ n →
      Reaches g u v → Reaches (tred g) u v := by
  intro n
  induction n with
  | zero =>
    intro u v hcard hr
    rcases hr.cases_head with rfl | ⟨x, hux, _⟩
    · exact Relation.ReflTransGen.refl
    · exfalso
      have hu : u ∈ g.nodes.filter (fun t => reachesB g u t && reachesB g t v) := by
        simp only [Finset.mem_filter, Bool.and_eq_true, reachesB_iff hwf]
        exact ⟨(hwf _ hux).1, Relation.ReflTransGen.refl, hr⟩
      have := Finset.card_pos.mpr ⟨u, hu⟩
      omega
  | succ n ih =>
    intro u v hcard hr
    rcases hr.cases_head with rfl | ⟨x, hux, hxv⟩
    · exact Relation.ReflTransGen.refl
    · by_cases hxveq : x = v
      · subst hxveq
        by_cases hkeep : (u, x) ∈ (tred g).edges
        · exact Relation.ReflTransGen.single hkeep
        · rw [mem_tred_edges] at hkeep
          push_neg at hkeep
          obtain ⟨f, hf, hf1, hf2, hf3⟩ := hkeep hux
          rw [Bool.ne_false_iff, reachesB_iff hwf] at hf3
          have hf3x : Reaches g f.2 x := hf3
          have hf2x : f.2 ≠ x := hf2
          have hfe : (u, f.2) ∈ g.edges := by
            have hfu : f = (u, f.2) := by
              rcases f with ⟨f1, f2⟩
              simp only at hf1 ⊢
              simp [hf1]
            exact hfu ▸ hf
          have hrx : Reaches g u x := hr
          have hcx :
              (g.nodes.filter (fun t => reachesB g u t && reachesB g t x)).card ≤ n + 1 :=
            hcard
          have hL := interval_ssubset_left hwf hac hfe hf3x hf2x hrx
          have hR := interval_ssubset_right hwf hac hfe hf3x
          have hcL := Finset.card_lt_card hL
          have hcR := Finset.card_lt_card hR
          exact (ih u f.2 (by omega) (Relation.ReflTransGen.single hfe)).trans
            (ih f.2 x (by omega) hf3x)
      · have hxvr : Reaches g x v := hxv
        have hL := interval_ssubset_left hwf hac hux hxvr hxveq hr
        have hR := interval_ssubset_right hwf hac hux hxvr
        have hcL := Finset.card_lt_card hL
        have hcR := Finset.card_lt_card hR
        exact (ih u x (by omega) (Relation.ReflTransGen.single hux)).trans
          (ih x v (by omega) hxvr)

/-- On a DAG, the edges retained by `nx.transitive_reduction` preserve the
reachability relation exactly. -/
theorem tred_reaches_iff {g : DiGraph} (hwf : WF g) (hac : Acyclic g) (u v : ℕ) :
    Reaches (tred g) u v ↔ Reaches g u v :=
  ⟨reaches_mono (tred_edges_subset g),
   fun h => reaches_tred_of_reaches hwf hac _ u v (le_refl _) h⟩

theorem mem_sccClass_iff {g : DiGraph} (hwf : WF g) {u v : ℕ} :
    v ∈ sccClass g u ↔ v ∈ g.nodes ∧ Reaches g u v ∧ Reaches g v u := by
  simp only [sccClass, Finset.mem_filter, Bool.and_eq_true, reachesB_iff hwf, and_assoc]

theorem self_mem_sccClass {g : DiGraph} {u : ℕ} (hu : u ∈ g.nodes) :
    u ∈ sccClass g u := by
  simp [sccClass, hu, reachesB_refl]

theorem sccClass_nonempty {g : DiGraph} {u : ℕ} (hu : u ∈ g.nodes) :
    (sccClass g u).Nonempty :=
  ⟨u, self_mem_sccClass hu⟩

theorem sccClass_eq_of_mutual {g : DiGraph} (hwf : WF g) {u v : ℕ}
    (h1 : Reaches g u v) (h2 : Reaches g v u) :
    sccClass g u = sccClass g v := by
  ext t
  simp only [mem_sccClass_iff hwf]
  constructor
  · rintro ⟨ht, h3, h4⟩
    exact ⟨ht, h2.trans h3, h4.trans h1⟩
  · rintro ⟨ht, h3, h4⟩
    exact ⟨ht, h1.trans h3, h4.trans h2⟩

theorem sccRep_mem {g : DiGraph} {u : ℕ} (hu : u ∈ g.nodes) :
    sccRep g u ∈ sccClass g u := by
  unfold sccRep
  rw [dif_pos (sccClass_nonempty hu)]
  exact Finset.min'_mem _ _

theorem sccRep_spec {g : DiGraph} (hwf : WF g) {u : ℕ} (hu : u ∈ g.nodes) :
    sccRep g u ∈ g.nodes ∧ Reaches g u (sccRep g u) ∧ Reaches g (sccRep g u) u :=
  (mem_sccClass_iff hwf).mp (sccRep_mem hu)

theorem sccRep_eq_of_mutual {g : DiGraph} (hwf : WF g) {u v : ℕ}
    (hu : u ∈ g.nodes) (hv : v ∈ g.nodes) (h1 : Reaches g u v) (h2 : Reaches g v u) :
    sccRep g u = sccRep g v := by
  have hcl := sccClass_eq_of_mutual hwf h1 h2
  unfold sccRep
  rw [dif_pos (sccClass_nonempty hu), dif_pos (sccClass_nonempty hv)]
  apply le_antisymm
  · apply Finset.min'_le
    rw [hcl]
    exact Finset.min'_mem _ _
  · apply Finset.min'_le
    rw [← hcl]
    exact Finset.min'_mem _ _

theorem mutual_of_sccRep_eq {g : DiGraph} (hwf : WF g) {u v : ℕ}
    (hu : u ∈ g.nodes) (hv : v ∈ g.nodes) (h : sccRep g u = sccRep g v) :
    Reaches g u v ∧ Reaches g v u := by
  obtain ⟨_, hur1, hur2⟩ := sccRep_spec hwf hu
  obtain ⟨_, hvr1, hvr2⟩ := sccRep_spec hwf hv
  rw [h] at hur1 hur2
  exact ⟨hur1.trans hvr2, hvr1.trans hur2⟩

theorem mem_condense_edges {g : DiGraph} {c d : ℕ} :
    (c, d) ∈ (condense g).edges ↔
      ∃ e ∈ g.edges, sccRep g e.1 = c ∧ sccRep g e.2 = d ∧ c ≠ d := by
  simp only [condense, Finset.mem_image, Finset.mem_filter]
  constructor
  · rintro ⟨e, ⟨he, hne⟩, heq⟩
    have h1 : sccRep g e.1 = c := congrArg Prod.fst heq
    have h2 : sccRep g e.2 = d := congrArg Prod.snd heq
    exact ⟨e, he, h1, h2, h1 ▸ h2 ▸ hne⟩
  · rintro ⟨e, he, h1, h2, hne⟩
    exact ⟨e, ⟨he, by rw [h1, h2]; exact hne⟩, by rw [h1, h2]⟩

theorem condense_wf {g : DiGraph} (hwf : WF g) : WF (condense g) := by
  rintro ⟨c, d⟩ he
  obtain ⟨e, he', h1, h2, _⟩ := mem_condense_edges.mp he
  constructor
  · exact Finset.mem_image.mpr ⟨e.1, (hwf e he').1, h1⟩
  · exact Finset.mem_image.mpr ⟨e.2, (hwf e he').2, h2⟩

theorem condense_reaches_lift {g : DiGraph} (hwf : WF g) {c d : ℕ}
    (h : Reaches (condense g) c d) :
    ∀ u ∈ g.nodes, sccRep g u = c → ∃ v ∈ g.nodes, sccRep g v = d ∧ Reaches g u v := by
  induction h using Relation.ReflTransGen.head_induction_on with
  | refl =>
    intro u hu hrep
    exact ⟨u, hu, hrep, Relation.ReflTransGen.refl⟩
  | head hedge _ ih =>
    intro u hu hrep
    rename_i a b _
    obtain ⟨e, he, h1, h2, _⟩ := mem_condense_edges.mp hedge
    have hx1 : e.1 ∈ g.nodes := (hwf e he).1
    have hx2 : e.2 ∈ g.nodes := (hwf e he).2
    have hmut := mutual_of_sccRep_eq hwf hu hx1 (hrep.trans h1.symm)
    obtain ⟨v, hv, hvrep, hvr⟩ := ih e.2 hx2 h2
    refine ⟨v, hv, hvrep, ?_⟩
    exact (hmut.1.trans (Relation.ReflTransGen.single he)).trans hvr

theorem condense_acyclic {g : DiGraph} (hwf : WF g) : Acyclic (condense g) := by
  intro c d hcd hdc
  obtain ⟨e, he, h1, h2, hne⟩ := mem_condense_edges.mp hcd
  have hx1 : e.1 ∈ g.nodes := (hwf e he).1
  have hx2 : e.2 ∈ g.nodes := (hwf e he).2
  obtain ⟨v, hv, hvrep, hvr⟩ := condense_reaches_lift hwf hdc e.2 hx2 h2
  have hmut := mutual_of_sccRep_eq hwf hv hx1 (hvrep.trans h1.symm)
  have h12 : Reaches g e.1 e.2 := Relation.ReflTransGen.single he
  have h21 : Reaches g e.2 e.1 := hvr.trans hmut.1
  exact hne (by rw [← h1, ← h2]; exact sccRep_eq_of_mutual hwf hx1 hx2 h12 h21)

theorem inflate_edges_subset (g rc : DiGraph) : (inflate g rc).edges ⊆ g.edges :=
  Finset.filter_subset _ _

theorem mem_inflate_edges {g rc : DiGraph} {e : ℕ × ℕ} :
    e ∈ (inflate g rc).edges ↔ e ∈ g.edges ∧
      (sccRep g e.1 = sccRep g e.2 ∨ (sccRep g e.1, sccRep g e.2) ∈ rc.edges) :=
  Finset.mem_filter

theorem same_scc_reaches_inflate {g rc : DiGraph} (hwf : WF g) {u v : ℕ}
    (h1 : Reaches g u v) (h2 : Reaches g v u) : Reaches (inflate g rc) u v := by
  induction h1 using Relation.ReflTransGen.head_induction_on with
  | refl => exact Relation.ReflTransGen.refl
  | head hedge htail ih =>
    rename_i a c
    have hac : (a, c) ∈ g.edges := hedge
    have ha : a ∈ g.nodes := (hwf _ hac).1
    have hc : c ∈ g.nodes := (hwf _ hac).2
    have hca : Reaches g c a := htail.trans h2
    have hrep : sccRep g a = sccRep g c :=
      sccRep_eq_of_mutual hwf ha hc (Relation.ReflTransGen.single hac) hca
    have hkept : (a, c) ∈ (inflate g rc).edges :=
      mem_inflate_edges.mpr ⟨hac, Or.inl hrep⟩
    exact Relation.ReflTransGen.head hkept (ih (h2.trans (Relation.ReflTransGen.single hac)))

theorem inflate_reaches_of_tred_path {g : DiGraph} (hwf : WF g) {c d : ℕ}
    (h : Reaches (tred (condense g)) c d) :
    ∀ v ∈ g.nodes, sccRep g v = d → ∀ u ∈ g.nodes, sccRep g u = c →
      Reaches (inflate g (tred (condense g))) u v := by
  induction h using Relation.ReflTransGen.head_induction_on with
  | refl =>
    intro v hv hvrep u hu hurep
    have hmut := mutual_of_sccRep_eq hwf hu hv (hurep.trans hvrep.symm)
    exact same_scc_reaches_inflate hwf hmut.1 hmut.2
  | head hedge _ ih =>
    intro v hv hvrep u hu hurep
    rename_i a b _
    have hcond : (a, b) ∈ (condense g).edges := tred_edges_subset _ hedge
    obtain ⟨e, he, h1, h2, _⟩ := mem_condense_edges.mp hcond
    have hx1 : e.1 ∈ g.nodes := (hwf e he).1
    have hx2 : e.2 ∈ g.nodes := (hwf e he).2
    have hkept : (e.1, e.2) ∈ (inflate g (tred (condense g))).edges := by
      refine mem_inflate_edges.mpr ⟨he, Or.inr ?_⟩
      rw [h1, h2]
      exact hedge
    have hmut := mutual_of_sccRep_eq hwf hu hx1 (hurep.trans h1.symm)
    have hhead : Reaches (inflate g (tred (condense g))) u e.1 :=
      same_scc_reaches_inflate hwf hmut.1 hmut.2
    have htail : Reaches (inflate g (tred (condense g))) e.2 v := ih v hv hvrep e.2 hx2 h2
    exact (hhead.trans (Relation.ReflTransGen.single hkept)).trans htail

theorem inflate_reaches_iff {g : DiGraph} (hwf : WF g) (u v : ℕ) :
    Reaches (inflate g (tred (condense g))) u v ↔ Reaches g u v := by
  constructor
  · exact reaches_mono (inflate_edges_subset _ _)
  · intro h
    induction h with
    | refl => exact Relation.ReflTransGen.refl
    | tail _ h2 ih =>
      rename_i b c _
      have hb : b ∈ g.nodes := (hwf _ h2).1
      have hc : c ∈ g.nodes := (hwf _ h2).2
      refine ih.trans ?_
      by_cases hrep : sccRep g b = sccRep g c
      · have hmut := mutual_of_sccRep_eq hwf hb hc hrep
        exact same_scc_reaches_inflate hwf hmut.1 hmut.2
      · have hcond : (sccRep g b, sccRep g c) ∈ (condense g).edges :=
          mem_condense_edges.mpr ⟨(b, c), h2, rfl, rfl, hrep⟩
        have htr : Reaches (tred (condense g)) (sccRep g b) (sccRep g c) :=
          (tred_reaches_iff (condense_wf hwf) (condense_acyclic hwf) _ _).mpr
            (Relation.ReflTransGen.single hcond)
        exact inflate_reaches_of_tred_path hwf htr c hc rfl b hb rfl

end DiGraph

/-- C1: for every graph given to the transitive-reduction pass
(`Executor._transitive_reduction`) and for all node pairs `(u, v)`, `u` can
reach `v` in the returned graph iff `u` can reach `v` in the input graph —
covering both the acyclic branch (direct `nx.transitive_reduction`) and the
cyclic branch (condense, reduce the condensed DAG, re-expand keeping
intra-SCC subgraphs and only the retained inter-SCC edges). -/
theorem C1_transitive_reduction_reachability {g : DiGraph} (hwf : DiGraph.WF g)
    (u v : ℕ) :
    DiGraph.Reaches (transitive_reduction g) u v ↔ DiGraph.Reaches g u v := by
  unfold transitive_reduction
  by_cases hac : isAcyclicB g = true
  · rw [if_pos hac]
    exact DiGraph.tred_reaches_iff hwf ((DiGraph.isAcyclicB_iff hwf).mp hac) u v
  · rw [if_neg hac]
    exact DiGraph.inflate_reaches_iff hwf u v

/-- Witness for C1 at a concrete cyclic input. -/
theorem C1_transitive_reduction_reachability_witness :
    DiGraph.WF cycleExample ∧
      (DiGraph.Reaches (transitive_reduction cycleExample) 1 3 ↔
        DiGraph.Reaches cycleExample 1 3) :=
  ⟨by decide, C1_transitive_reduction_reachability (by decide) 1 3⟩

/-! ## Lemmas about the primitive graph operations -/

namespace DiGraph

theorem mem_succs {g : DiGraph} {u v : ℕ} : v ∈ succs g u ↔ (u, v) ∈ g.edges := by
  simp only [succs, Finset.mem_image, Finset.mem_filter]
  constructor
  · rintro ⟨⟨a, b⟩, ⟨hab, ha⟩, rfl⟩
    subst ha
    exact hab
  · intro h
    exact ⟨(u, v), ⟨h, rfl⟩, rfl⟩

theorem succs_mem_nodes {g : DiGraph} (hwf : WF g) {u v : ℕ} (h : v ∈ succs g u) :
    v ∈ g.nodes :=
  (hwf _ (mem_succs.mp h)).2

theorem addEdge_edges (g : DiGraph) (u v : ℕ) :
    (g.addEdge u v).edges = insert (u, v) g.edges := rfl

theorem addEdge_nodes_of_mem {g : DiGraph} {u v : ℕ} (hu : u ∈ g.nodes)
    (hv : v ∈ g.nodes) : (g.addEdge u v).nodes = g.nodes := by
  simp [addEdge, Finset.insert_eq_self.mpr hu, Finset.insert_eq_self.mpr hv]

theorem addEdge_wf {g : DiGraph} (hwf : WF g) (u v : ℕ) : WF (g.addEdge u v) := by
  rintro e he
  rcases Finset.mem_insert.mp he with rfl | he'
  · simp [addEdge]
  · have := hwf e he'
    simp only [addEdge]
    exact ⟨Finset.mem_insert_of_mem (Finset.mem_insert_of_mem this.1),
      Finset.mem_insert_of_mem (Finset.mem_insert_of_mem this.2)⟩

theorem removeEdge_edges (g : DiGraph) (u v : ℕ) :
    (g.removeEdge u v).edges = g.edges.erase (u, v) := rfl

theorem removeEdge_nodes (g : DiGraph) (u v : ℕ) :
    (g.removeEdge u v).nodes = g.nodes := rfl

theorem removeEdge_wf {g : DiGraph} (hwf : WF g) (u v : ℕ) : WF (g.removeEdge u v) :=
  fun e he => hwf e (Finset.mem_of_mem_erase he)

theorem removeEdgesFrom_nodes (g : DiGraph) (u : ℕ) (l : List ℕ) :
    (removeEdgesFrom g u l).nodes = g.nodes := by
  induction l generalizing g with
  | nil => rfl
  | cons a as ih => simp [removeEdgesFrom, List.foldl_cons] at ih ⊢; exact ih _

theorem mem_removeEdgesFrom_edges {g : DiGraph} {u : ℕ} {l : List ℕ} {e : ℕ × ℕ} :
    e ∈ (removeEdgesFrom g u l).edges ↔ e ∈ g.edges ∧ ¬(e.1 = u ∧ e.2 ∈ l) := by
  induction l generalizing g with
  | nil => simp [removeEdgesFrom]
  | cons a as ih =>
    simp only [removeEdgesFrom, List.foldl_cons] at ih ⊢
    rw [ih]
    simp only [removeEdge_edges, Finset.mem_erase, List.mem_cons]
    constructor
    · rintro ⟨⟨hne, he⟩, hno⟩
      refine ⟨he, ?_⟩
      rintro ⟨h1, h2 | h2⟩
      · exact hne (by rcases e with ⟨e1, e2⟩; simp only at h1 h2; simp [h1, h2])
      · exact hno ⟨h1, h2⟩
    · rintro ⟨he, hno⟩
      refine ⟨⟨?_, he⟩, ?_⟩
      · rintro rfl
        exact hno ⟨rfl, Or.inl rfl⟩
      · rintro ⟨h1, h2⟩
        exact hno ⟨h1, Or.inr h2⟩

theorem removeEdgesFrom_wf {g : DiGraph} (hwf : WF g) (u : ℕ) (l : List ℕ) :
    WF (removeEdgesFrom g u l) := by
  intro e he
  rw [removeEdgesFrom_nodes]
  exact hwf e (mem_removeEdgesFrom_edges.mp he).1

theorem addEdges_edges (g : DiGraph) (l : List (ℕ × ℕ)) :
    (addEdges g l).edges = g.edges ∪ l.toFinset := by
  induction l generalizing g with
  | nil => simp [addEdges]
  | cons a as ih =>
    simp only [addEdges, List.foldl_cons] at ih ⊢
    rw [ih]
    ext e
    simp only [addEdge_edges, Finset.mem_union, Finset.mem_insert, List.toFinset_cons,
      Prod.mk.eta]
    tauto

theorem addEdges_nodes_of_mem {g : DiGraph} {l : List (ℕ × ℕ)}
    (h : ∀ e ∈ l, e.1 ∈ g.nodes ∧ e.2 ∈ g.nodes) :
    (addEdges g l).nodes = g.nodes := by
  induction l generalizing g with
  | nil => rfl
  | cons a as ih =>
    simp only [addEdges, List.foldl_cons] at ih ⊢
    have ha := h a (List.mem_cons_self a as)
    have hnodes : (g.addEdge a.1 a.2).nodes = g.nodes := addEdge_nodes_of_mem ha.1 ha.2
    rw [ih]
    · exact hnodes
    · intro e he
      rw [hnodes]
      exact h e (List.mem_cons_of_mem a he)

theorem succs_removeEdgesFrom_of_ne {g : DiGraph} {u c : ℕ} {l : List ℕ}
    (hne : c ≠ u) : succs (removeEdgesFrom g u l) c = succs g c := by
  ext v
  simp only [mem_succs, mem_removeEdgesFrom_edges]
  exact ⟨fun h => h.1, fun h => ⟨h, fun hc => hne hc.1⟩⟩

theorem succs_addEdge_of_ne {g : DiGraph} {u v c : ℕ} (hne : c ≠ u) :
    succs (g.addEdge u v) c = succs g c := by
  ext x
  simp only [mem_succs, addEdge_edges, Finset.mem_insert, Prod.mk.injEq]
  constructor
  · rintro (⟨h1, h2⟩ | h)
    · exact absurd h1 hne
    · exact h
  · exact fun h => Or.inr h

theorem mem_succs_addEdge_self {g : DiGraph} {u v : ℕ} :
    v ∈ succs (g.addEdge u v) u := by
  simp [mem_succs, addEdge_edges]

end DiGraph

/-! ## Lemmas about the stable sort and canonical enumerations -/

theorem insSorted_perm {α : Type*} (le : α → α → Bool) (a : α) (l : List α) :
    List.Perm (insSorted le a l) (a :: l) := by
  induction l with
  | nil => exact List.Perm.refl _
  | cons b bs ih =>
    simp only [insSorted]
    by_cases h : le a b = true
    · rw [if_pos h]
    · rw [if_neg h]
      exact (List.Perm.cons b ih).trans (List.Perm.swap a b bs)

theorem sortStable_perm {α : Type*} (le : α → α → Bool) (l : List α) :
    List.Perm (sortStable le l) l := by
  induction l with
  | nil => exact List.Perm.refl _
  | cons a as ih =>
    exact (insSorted_perm le a (sortStable le as)).trans (List.Perm.cons a ih)

theorem mem_sortStable {α : Type*} {le : α → α → Bool} {l : List α} {x : α} :
    x ∈ sortStable le l ↔ x ∈ l :=
  (sortStable_perm le l).mem_iff

theorem mem_insSorted {α : Type*} {le : α → α → Bool} {l : List α} {a x : α} :
    x ∈ insSorted le a l ↔ x = a ∨ x ∈ l := by
  rw [(insSorted_perm le a l).mem_iff, List.mem_cons]

theorem insSorted_pairwise {α : Type*} {le : α → α → Bool}
    (htot : ∀ a b, le a b = true ∨ le b a = true)
    (htrans : ∀ a b c, le a b = true → le b c = true → le a c = true)
    {l : List α} (a : α) (hl : l.Pairwise (fun x y => le x y = true)) :
    (insSorted le a l).Pairwise (fun x y => le x y = true) := by
  induction l with
  | nil => simp [insSorted]
  | cons b bs ih =>
    simp only [insSorted]
    by_cases h : le a b = true
    · rw [if_pos h]
      refine List.Pairwise.cons ?_ hl
      intro y hy
      rcases List.mem_cons.mp hy with rfl | hy'
      · exact h
      · exact htrans a b y h (List.rel_of_pairwise_cons hl hy')
    · rw [if_neg h]
      have hba : le b a = true := (htot a b).resolve_left h
      refine List.Pairwise.cons ?_ (ih (List.Pairwise.of_cons hl))
      intro y hy
      rcases mem_insSorted.mp hy with rfl | hy'
      · exact hba
      · exact List.rel_of_pairwise_cons hl hy'

theorem sortStable_pairwise {α : Type*} {le : α → α → Bool}
    (htot : ∀ a b, le a b = true ∨ le b a = true)
    (htrans : ∀ a b c, le a b = true → le b c = true → le a c = true)
    (l : List α) : (sortStable le l).Pairwise (fun x y => le x y = true) := by
  induction l with
  | nil => simp [sortStable]
  | cons a as ih => exact insSorted_pairwise htot htrans a ih

theorem mem_ascList {s : Finset ℕ} {x : ℕ} : x ∈ ascList s ↔ x ∈ s := by
  simp only [ascList, List.mem_filter, List.mem_range, decide_eq_true_eq]
  constructor
  · exact fun h => h.2
  · intro h
    refine ⟨?_, h⟩
    have hle : id x ≤ s.sup id := Finset.le_sup h
    simp only [id_eq] at hle
    omega

theorem keyLe_total (w : World) (c : ℕ) : ∀ a b, keyLe w c a b = true ∨ keyLe w c b a = true := by
  intro a b
  simp only [keyLe, Bool.or_eq_true, Bool.and_eq_true, decide_eq_true_eq]
  omega

theorem keyLe_trans (w : World) (c : ℕ) :
    ∀ a b d, keyLe w c a b = true → keyLe w c b d = true → keyLe w c a d = true := by
  intro a b d
  simp only [keyLe, Bool.or_eq_true, Bool.and_eq_true, decide_eq_true_eq]
  omega

theorem mem_sortedAlternatives {w : World} {g : DiGraph} {u a : ℕ} :
    a ∈ sortedAlternatives w g u ↔ (u, a) ∈ g.edges := by
  rw [sortedAlternatives, mem_sortStable, successorsList, mem_ascList, DiGraph.mem_succs]

theorem sortedAlternatives_perm (w : World) (g : DiGraph) (u : ℕ) :
    List.Perm (sortedAlternatives w g u) (successorsList g u) :=
  sortStable_perm _ _

/-! ## State restoration and invariants of the backtracking assignment -/

open DiGraph in
theorem succs_eq_of_edges_eq {g g' : DiGraph} (h : g.edges = g'.edges) (c : ℕ) :
    succs g c = succs g' c := by
  simp [succs, h]

open DiGraph in
/-- Behaviour of one round of the alternatives loop, given the behaviour of
the recursive call (`recur`): on failure the graph and (up to order) the
remaining list are restored; on success the node set is that of the input and
every choice keeps an alternative. -/
theorem assignLoop_spec (w : World)
    (recur : DiGraph → List ℕ → Option DiGraph × DiGraph × List ℕ)
    (hrec : ∀ g' rem', WF g' → (∀ x ∈ rem', x ∈ g'.nodes) →
      ((recur g' rem').1 = none →
        (recur g' rem').2.1.nodes = g'.nodes ∧ (recur g' rem').2.1.edges = g'.edges ∧
          List.Perm (recur g' rem').2.2 rem') ∧
      (∀ s, (recur g' rem').1 = some s →
        s.nodes = g'.nodes ∧ WF s ∧ (ChoicesNonempty w g' → ChoicesNonempty w s))) :
    ∀ alts toAssign g rem, WF g → (∀ x ∈ rem, x ∈ g.nodes) → toAssign ∈ g.nodes →
      (∀ a ∈ alts, a ∈ g.nodes ∧ (toAssign, a) ∉ g.edges) →
      (((assignLoop recur alts toAssign g rem).1 = none →
        (assignLoop recur alts toAssign g rem).2.1.nodes = g.nodes ∧
        (assignLoop recur alts toAssign g rem).2.1.edges = g.edges ∧
        List.Perm (assignLoop recur alts toAssign g rem).2.2 rem) ∧
      (∀ s, (assignLoop recur alts toAssign g rem).1 = some s →
        s.nodes = g.nodes ∧ WF s ∧
        ((∀ c ∈ g.nodes, w.isChoice c = true → c ≠ toAssign → (succs g c).Nonempty) →
          ChoicesNonempty w s))) := by
  intro alts
  induction alts with
  | nil =>
    intro toAssign g rem hwf hrem htA halts
    constructor
    · intro _
      exact ⟨rfl, rfl, List.Perm.refl _⟩
    · intro s hs
      simp [assignLoop] at hs
  | cons a rest ih =>
    intro toAssign g rem hwf hrem htA halts
    have haA : a ∈ g.nodes := (halts a (List.mem_cons_self a rest)).1
    have haE : (toAssign, a) ∉ g.edges := (halts a (List.mem_cons_self a rest)).2
    have hwfA : WF (g.addEdge toAssign a) := addEdge_wf hwf _ _
    have hnodesA : (g.addEdge toAssign a).nodes = g.nodes := addEdge_nodes_of_mem htA haA
    have hpr1 : ∀ x ∈ (filter_out_unreachable (g.addEdge toAssign a) rem [ROOT]).1,
        x ∈ (g.addEdge toAssign a).nodes := by
      intro x hx
      rw [hnodesA]
      exact hrem x (List.mem_of_mem_filter hx)
    obtain ⟨hrecN, hrecS⟩ := hrec (g.addEdge toAssign a) _ hwfA hpr1
    rcases hout : recur (g.addEdge toAssign a)
        (filter_out_unreachable (g.addEdge toAssign a) rem [ROOT]).1 with ⟨res, g1, rem1⟩
    rw [hout] at hrecN hrecS
    have hunfold : assignLoop recur (a :: rest) toAssign g rem =
        match recur (g.addEdge toAssign a)
            (filter_out_unreachable (g.addEdge toAssign a) rem [ROOT]).1 with
        | (some solved, g1, rem1) => (some solved, g1, rem1)
        | (none, g1, rem1) =>
          assignLoop recur rest toAssign (g1.removeEdge toAssign a)
            (rem1 ++ (filter_out_unreachable (g.addEdge toAssign a) rem [ROOT]).2) := rfl
    cases res with
    | some solved =>
      rw [hunfold, hout]
      obtain ⟨hsn, hsw, hsp⟩ := hrecS solved rfl
      constructor
      · intro h
        exact absurd h (by simp)
      · intro s hs
        simp only [Option.some.injEq] at hs
        subst hs
        refine ⟨hsn.trans hnodesA, hsw, ?_⟩
        intro hpone
        refine hsp ?_
        intro c hc hcc
        rw [hnodesA] at hc
        by_cases hct : c = toAssign
        · subst hct
          exact ⟨a, mem_succs_addEdge_self⟩
        · rw [succs_addEdge_of_ne hct]
          exact hpone c hc hcc hct
    | none =>
      obtain ⟨h1n, h1e, h1p⟩ := hrecN rfl
      have hg2e : (g1.removeEdge toAssign a).edges = g.edges := by
        rw [removeEdge_edges, h1e, addEdge_edges]
        exact Finset.erase_insert haE
      have hg2n : (g1.removeEdge toAssign a).nodes = g.nodes := by
        rw [removeEdge_nodes, h1n, hnodesA]
      have hwf2 : WF (g1.removeEdge toAssign a) := by
        intro e he
        rw [hg2e] at he
        rw [hg2n]
        exact hwf e he
      have hrem2 : ∀ x ∈ rem1 ++ (filter_out_unreachable (g.addEdge toAssign a) rem [ROOT]).2,
          x ∈ (g1.removeEdge toAssign a).nodes := by
        intro x hx
        rw [hg2n]
        rcases List.mem_append.mp hx with hx' | hx'
        · exact hrem x (List.mem_of_mem_filter (h1p.mem_iff.mp hx'))
        · exact hrem x (List.mem_of_mem_filter hx')
      have halts2 : ∀ a' ∈ rest, a' ∈ (g1.removeEdge toAssign a).nodes ∧
          (toAssign, a') ∉ (g1.removeEdge toAssign a).edges := by
        intro a' ha'
        rw [hg2n, hg2e]
        exact halts a' (List.mem_cons_of_mem a ha')
      have htA2 : toAssign ∈ (g1.removeEdge toAssign a).nodes := by
        rw [hg2n]; exact htA
      obtain ⟨ihN, ihS⟩ := ih toAssign (g1.removeEdge toAssign a)
        (rem1 ++ (filter_out_unreachable (g.addEdge toAssign a) rem [ROOT]).2)
        hwf2 hrem2 htA2 halts2
      rw [hunfold, hout]
      constructor
      · intro h
        obtain ⟨hn, he, hp⟩ := ihN h
        refine ⟨hn.trans hg2n, he.trans hg2e, ?_⟩
        refine hp.trans ?_
        refine List.Perm.trans (List.Perm.append_right _ h1p) ?_
        exact List.filter_append_perm _ rem
      · intro s hs
        obtain ⟨hn, hw, hp⟩ := ihS s hs
        refine ⟨hn.trans hg2n, hw, ?_⟩
        intro hpone
        refine hp ?_
        intro c hc hcc hct
        rw [hg2n] at hc
        rw [succs_eq_of_edges_eq hg2e]
        exact hpone c hc hcc hct

open DiGraph in
/-- Behaviour of `_assign_strongly_connected_component`: on failure the
graph's node and edge sets and — up to order — the remaining list are exactly
restored; on success the returned graph has the same node set, is
well-formed, and every choice node keeps at least one alternative. -/
theorem assignSCC_spec (w : World) :
    ∀ fuel g rem scc, WF g → (∀ x ∈ rem, x ∈ g.nodes) →
      (((assignSCC w fuel g rem scc).1 = none →
        (assignSCC w fuel g rem scc).2.1.nodes = g.nodes ∧
        (assignSCC w fuel g rem scc).2.1.edges = g.edges ∧
        List.Perm (assignSCC w fuel g rem scc).2.2 rem) ∧
      (∀ s, (assignSCC w fuel g rem scc).1 = some s →
        s.nodes = g.nodes ∧ WF s ∧ (ChoicesNonempty w g → ChoicesNonempty w s))) := by
  intro fuel
  induction fuel with
  | zero =>
    intro g rem scc hwf hrem
    constructor
    · intro _
      exact ⟨rfl, rfl, List.Perm.refl _⟩
    · intro s hs
      simp [assignSCC] at hs
  | succ fuel ih =>
    intro g rem scc hwf hrem
    cases hlast : rem.getLast? with
    | none =>
      have hunfold : assignSCC w (fuel + 1) g rem scc =
          (if has_unsatisfied_cycles w ((g.remove_unreachable [ROOT]).inducedSub scc)
            then none else some g, g, rem) := by
        simp [assignSCC, hlast]
      rw [hunfold]
      constructor
      · intro _
        exact ⟨rfl, rfl, List.Perm.refl _⟩
      · intro s hs
        simp only at hs
        split at hs
        · exact absurd hs (by simp)
        · simp only [Option.some.injEq] at hs
          subst hs
          exact ⟨rfl, hwf, fun h => h⟩
    | some toAssign =>
      have htA_rem : toAssign ∈ rem := List.mem_of_mem_getLast? hlast
      have htA : toAssign ∈ g.nodes := hrem _ htA_rem
      have hwf0 : WF (removeEdgesFrom g toAssign (sortedAlternatives w g toAssign)) :=
        removeEdgesFrom_wf hwf _ _
      have hnodes0 : (removeEdgesFrom g toAssign (sortedAlternatives w g toAssign)).nodes =
          g.nodes := removeEdgesFrom_nodes g _ _
      have halts : ∀ a ∈ sortedAlternatives w g toAssign,
          a ∈ (removeEdgesFrom g toAssign (sortedAlternatives w g toAssign)).nodes ∧
          (toAssign, a) ∉ (removeEdgesFrom g toAssign (sortedAlternatives w g toAssign)).edges := by
        intro a ha
        constructor
        · rw [hnodes0]
          exact (hwf _ (mem_sortedAlternatives.mp ha)).2
        · rw [mem_removeEdgesFrom_edges]
          rintro ⟨_, hno⟩
          exact hno ⟨rfl, ha⟩
      have hrem0 : ∀ x ∈ rem.dropLast,
          x ∈ (removeEdgesFrom g toAssign (sortedAlternatives w g toAssign)).nodes := by
        intro x hx
        rw [hnodes0]
        exact hrem x (List.mem_of_mem_dropLast hx)
      have htA0 : toAssign ∈ (removeEdgesFrom g toAssign (sortedAlternatives w g toAssign)).nodes := by
        rw [hnodes0]; exact htA
      obtain ⟨hloopN, hloopS⟩ := assignLoop_spec w
        (fun g' r' => assignSCC w fuel g' r' scc)
        (fun g' rem' hw hr => ih g' rem' scc hw hr)
        (sortedAlternatives w g toAssign) toAssign
        (removeEdgesFrom g toAssign (sortedAlternatives w g toAssign))
        rem.dropLast hwf0 hrem0 htA0 halts
      rcases hout : assignLoop (fun g' r' => assignSCC w fuel g' r' scc)
          (sortedAlternatives w g toAssign) toAssign
          (removeEdgesFrom g toAssign (sortedAlternatives w g toAssign))
          rem.dropLast with ⟨res, g1, rem1⟩
      rw [hout] at hloopN hloopS
      have hunfold : assignSCC w (fuel + 1) g rem scc =
          match assignLoop (fun g' r' => assignSCC w fuel g' r' scc)
              (sortedAlternatives w g toAssign) toAssign
              (removeEdgesFrom g toAssign (sortedAlternatives w g toAssign))
              rem.dropLast with
          | (some solved, g1, rem1) => (some solved, g1, rem1)
          | (none, g1, rem1) =>
            (none, g1.addEdges ((sortedAlternatives w g toAssign).map
              (fun a => (toAssign, a))), rem1 ++ [toAssign]) := by
        simp [assignSCC, hlast]
      cases res with
      | some solved =>
        rw [hunfold, hout]
        obtain ⟨hsn, hsw, hsp⟩ := hloopS solved rfl
        constructor
        · intro h
          exact absurd h (by simp)
        · intro s hs
          simp only [Option.some.injEq] at hs
          subst hs
          refine ⟨hsn.trans hnodes0, hsw, ?_⟩
          intro hpone
          refine hsp ?_
          intro c hc hcc hct
          rw [hnodes0] at hc
          rw [succs_removeEdgesFrom_of_ne hct]
          exact hpone c hc hcc
      | none =>
        rw [hunfold, hout]
        obtain ⟨h1n, h1e, h1p⟩ := hloopN rfl
        have hedges : (g1.addEdges ((sortedAlternatives w g toAssign).map
            (fun a => (toAssign, a)))).edges = g.edges := by
          rw [addEdges_edges, h1e]
          ext e
          simp only [Finset.mem_union, mem_removeEdgesFrom_edges, List.mem_toFinset,
            List.mem_map]
          constructor
          · rintro (⟨he, _⟩ | ⟨a, ha, rfl⟩)
            · exact he
            · exact mem_sortedAlternatives.mp ha
          · intro he
            by_cases hsplit : e.1 = toAssign ∧ e.2 ∈ sortedAlternatives w g toAssign
            · refine Or.inr ⟨e.2, hsplit.2, ?_⟩
              rcases e with ⟨e1, e2⟩
              simp only at hsplit ⊢
              rw [hsplit.1]
            · exact Or.inl ⟨he, hsplit⟩
        have hnodes : (g1.addEdges ((sortedAlternatives w g toAssign).map
            (fun a => (toAssign, a)))).nodes = g.nodes := by
          rw [addEdges_nodes_of_mem, h1n, hnodes0]
          intro e he
          obtain ⟨a, ha, rfl⟩ := List.mem_map.mp he
          rw [h1n, hnodes0]
          exact ⟨htA, (hwf _ (mem_sortedAlternatives.mp ha)).2⟩
        constructor
        · intro _
          refine ⟨hnodes, hedges, ?_⟩
          have : List.Perm (rem1 ++ [toAssign]) (rem.dropLast ++ [toAssign]) :=
            List.Perm.append_right _ h1p
          refine this.trans ?_
          rw [List.dropLast_append_getLast? toAssign hlast]
        · intro s hs
          exact absurd hs (by simp)

/-! ## The resolver claims -/

theorem sccList_subset {g : DiGraph} {S : Finset ℕ} (h : S ∈ sccList g) :
    S ⊆ g.nodes := by
  simp only [sccList, List.mem_dedup, List.mem_map] at h
  obtain ⟨u, _, rfl⟩ := h
  exact Finset.filter_subset _ _

theorem anyOfNodesIn_subset_nodes {w : World} {g : DiGraph} {scc : Finset ℕ}
    (hscc : scc ⊆ g.nodes) : ∀ x ∈ anyOfNodesIn w g scc, x ∈ g.nodes := by
  intro x hx
  exact hscc (mem_ascList.mp (List.mem_of_mem_filter hx))

open DiGraph in
theorem has_choices_false_iff {w : World} {g : DiGraph} :
    has_choices w g = false ↔
      ∀ c ∈ g.nodes, w.isChoice c = true → (succs g c).card ≤ 1 := by
  unfold has_choices
  rw [decide_eq_false_iff_not]
  simp only [not_exists, not_and, not_lt]

/-- C7 (amended): when the backtracking assignment procedure fails for a
choice node (every alternative exhausted), it leaves the graph's node and
edge sets equal to their state at entry and the list of remaining unassigned
choice nodes equal up to order (a permutation — the temporary
`remaining.remove(n)` / `remaining.append(n)` exclusion can reorder it),
before failure is signalled to the caller. -/
theorem C7_assign_failure_restores {w : World} {fuel : ℕ} {g : DiGraph}
    {rem : List ℕ} {scc : Finset ℕ} (hwf : DiGraph.WF g)
    (hrem : ∀ x ∈ rem, x ∈ g.nodes)
    (hfail : (assignSCC w fuel g rem scc).1 = none) :
    (assignSCC w fuel g rem scc).2.1.edges = g.edges ∧
    (assignSCC w fuel g rem scc).2.1.nodes = g.nodes ∧
    List.Perm (assignSCC w fuel g rem scc).2.2 rem := by
  obtain ⟨hn, he, hp⟩ := (assignSCC_spec w fuel g rem scc hwf hrem).1 hfail
  exact ⟨he, hn, hp⟩

/-- Witness for C7 at the concrete backtracking instance. -/
theorem C7_assign_failure_restores_witness :
    (DiGraph.WF backtrackG ∧ (∀ x ∈ [2, 3, 1], x ∈ backtrackG.nodes) ∧
      (assignSCC backtrackW 10 backtrackG [2, 3, 1] backtrackSCC).1 = none) ∧
    ((assignSCC backtrackW 10 backtrackG [2, 3, 1] backtrackSCC).2.1.edges =
        backtrackG.edges ∧
      (assignSCC backtrackW 10 backtrackG [2, 3, 1] backtrackSCC).2.1.nodes =
        backtrackG.nodes ∧
      List.Perm (assignSCC backtrackW 10 backtrackG [2, 3, 1] backtrackSCC).2.2
        [2, 3, 1]) :=
  ⟨⟨by decide, by decide, by decide⟩,
   C7_assign_failure_restores (by decide) (by decide) (by decide)⟩

/-- C7 counterexample: a failing run of the backtracking procedure whose
restored `remaining` list is a permutation of, but not equal to, its entry
state (`[2, 3, 1]` comes back as `[3, 2, 1]`). -/
theorem C7_counterexample_remaining_reordered :
    (assignSCC backtrackW 10 backtrackG [2, 3, 1] backtrackSCC).1 = none ∧
    (assignSCC backtrackW 10 backtrackG [2, 3, 1] backtrackSCC).2.2 = [3, 2, 1] ∧
    [3, 2, 1] ≠ [2, 3, 1] :=
  ⟨by decide, by decide, by decide⟩

/-- C2 (amended): `_assign_choices` either fails (`some none`, turned into a
user-facing resolution error by `_create_dependency_graph`) or returns a
graph in which every choice node has exactly one outgoing edge.  Cycles of
unsatisfied actions in strongly connected components without
multi-alternative choice nodes are not examined and may remain (see the
counterexample). -/
theorem C2_assign_choices_unique_alternative {w : World} :
    ∀ fuel fuelS (g g' : DiGraph), DiGraph.WF g → ChoicesNonempty w g →
      assign_choices w fuel fuelS g = some (some g') →
      ∀ c ∈ g'.nodes, w.isChoice c = true → (DiGraph.succs g' c).card = 1 := by
  intro fuel
  induction fuel with
  | zero =>
    intro fuelS g g' _ _ h
    simp [assign_choices] at h
  | succ fuel ih =>
    intro fuelS g g' hwf hone h
    rw [show assign_choices w (fuel + 1) fuelS g =
        (if has_choices w g then
          match (sccListSorted g).find? (fun scc => !(anyOfNodesIn w g scc).isEmpty) with
          | none => assign_choices w fuel fuelS g
          | some scc =>
            match assignSCC w fuelS g (anyOfNodesIn w g scc) scc with
            | (none, _, _) => some none
            | (some g1, _, _) => assign_choices w fuel fuelS g1
        else some (some g)) from rfl] at h
    split at h
    · split at h
      · exact ih fuelS g g' hwf hone h
      · rename_i scc hfind
        split at h
        · simp at h
        · rename_i gs g1 rem1 hscc
          have hsubscc : scc ⊆ g.nodes :=
            sccList_subset (mem_sortStable.mp (List.mem_of_find?_eq_some hfind))
          have hrem : ∀ x ∈ anyOfNodesIn w g scc, x ∈ g.nodes :=
            anyOfNodesIn_subset_nodes hsubscc
          have hspec := (assignSCC_spec w fuelS g (anyOfNodesIn w g scc) scc hwf hrem).2 gs
            (by rw [hscc])
          exact ih fuelS gs g' hspec.2.1 (hspec.2.2 hone) h
    · rename_i hch
      have hf : has_choices w g = false := by
        revert hch
        cases has_choices w g <;> simp
      simp only [Option.some.injEq] at h
      subst h
      intro c hc hcc
      have hle := has_choices_false_iff.mp hf c hc hcc
      have hpos := Finset.card_pos.mpr (hone c hc hcc)
      omega

/-- Witness for C2: on `choiceSatG` the resolver succeeds and its choice
node 1 is left with exactly one outgoing edge. -/
theorem C2_assign_choices_unique_alternative_witness :
    DiGraph.WF choiceSatG ∧ (DiGraph.succs choiceSatRes 1).card = 1 :=
  ⟨by decide,
   @C2_assign_choices_unique_alternative choiceW 3 5 choiceSatG choiceSatRes (by decide)
     (by unfold ChoicesNonempty; decide) (by decide) 1 (by decide) (by decide)⟩

/-- C2 counterexample: a graph whose only cycle consists of two unsatisfied
plain actions (no choice node anywhere) is returned unchanged by
`_assign_choices` — the resolver neither fails nor removes the unsatisfied
cycle, violating the claimed contract. -/
theorem C2_counterexample_unsatisfied_cycle_returned :
    assign_choices noChoiceW 1 5 noChoiceG = some (some noChoiceG) ∧
    (1, 2) ∈ noChoiceG.edges ∧ (2, 1) ∈ noChoiceG.edges ∧
    noChoiceW.satisfied 1 = false ∧ noChoiceW.satisfied 2 = false ∧
    has_unsatisfied_cycles noChoiceW noChoiceG = true :=
  ⟨by decide, by decide, by decide, by decide, by decide, by decide⟩

theorem keyLe_eq_true_iff {w : World} {c a b : ℕ} : keyLe w c a b = true ↔
    ((keyer w c a).1 < (keyer w c b).1 ∨
      ((keyer w c a).1 = (keyer w c b).1 ∧ (keyer w c a).2 ≤ (keyer w c b).2)) := by
  simp [keyLe]

/-- C4: the backtracking procedure tries a choice's alternatives sorted by
the priority key — satisfied alternatives first (priority 0), then the
designated preferred alternative (priority 1), then the rest (priority 2),
with the action name as the sole tie-break inside a priority class — and
consequently, for a choice with alternatives A (unsatisfied, even preferred)
and B (satisfied): B is selected when retaining it leaves no unsatisfied
cycle, A is selected when B closes one, and resolution fails (user-facing
error) when both do. -/
theorem C4_alternatives_priority_order :
    (∀ (w : World) (g : DiGraph) (c : ℕ),
      List.Perm (sortedAlternatives w g c) (successorsList g c) ∧
      (sortedAlternatives w g c).Pairwise (fun a b =>
        (keyer w c a).1 < (keyer w c b).1 ∨
          ((keyer w c a).1 = (keyer w c b).1 ∧ (keyer w c a).2 ≤ (keyer w c b).2))) ∧
    (assign_choices choiceW 3 5 choiceSatG).map
        (Option.map (fun h => DiGraph.succs h 1)) = some (some {3}) ∧
    (assign_choices choiceW 3 5 choiceCycleG).map
        (Option.map (fun h => DiGraph.succs h 1)) = some (some {2}) ∧
    assign_choices choiceW 3 5 choiceBlockedG = some none := by
  refine ⟨?_, by decide, by decide, by decide⟩
  intro w g c
  refine ⟨sortedAlternatives_perm w g c, ?_⟩
  exact (sortStable_pairwise (keyLe_total w c) (keyLe_trans w c)
    (successorsList g c)).imp (fun h => keyLe_eq_true_iff.mp h)

/-! ## The satisfied-attracting-components pass (C6) -/

theorem findSatisfiedAttracting_mem {w : World} {g : DiGraph} {S : Finset ℕ}
    (h : findSatisfiedAttracting w g = some S) :
    S ∈ sccList g ∧ isClosedB g S = true ∧ ∀ u ∈ S, w.satisfied u = true := by
  have hmem := List.mem_of_find?_eq_some h
  have hpred := List.find?_some h
  simp only [Bool.and_eq_true, decide_eq_true_eq] at hpred
  exact ⟨hmem, hpred.1, hpred.2⟩

open DiGraph in
theorem sccList_mem_nonempty {g : DiGraph} {S : Finset ℕ} (h : S ∈ sccList g) :
    S.Nonempty := by
  simp only [sccList, List.mem_dedup, List.mem_map] at h
  obtain ⟨u, hu, rfl⟩ := h
  exact sccClass_nonempty (mem_ascList.mp hu)

theorem removeNodes_nodes (g : DiGraph) (s : Finset ℕ) :
    (g.removeNodes s).nodes = g.nodes \ s := rfl

theorem removeAux_removed_satisfied (w : World) :
    ∀ fuel (g : DiGraph) (x : ℕ), x ∈ g.nodes →
      x ∉ (removeSatisfiedAttractingAux w fuel g).nodes → w.satisfied x = true := by
  intro fuel
  induction fuel with
  | zero =>
    intro g x hx hnx
    exact absurd hx hnx
  | succ fuel ih =>
    intro g x hx hnx
    rw [show removeSatisfiedAttractingAux w (fuel + 1) g =
        (match findSatisfiedAttracting w g with
         | none => g
         | some s => removeSatisfiedAttractingAux w fuel (g.removeNodes s)) from rfl] at hnx
    cases hfind : findSatisfiedAttracting w g with
    | none =>
      rw [hfind] at hnx
      exact absurd hx hnx
    | some S =>
      rw [hfind] at hnx
      by_cases hxS : x ∈ S
      · exact (findSatisfiedAttracting_mem hfind).2.2 x hxS
      · refine ih (g.removeNodes S) x ?_ hnx
        rw [removeNodes_nodes]
        exact Finset.mem_sdiff.mpr ⟨hx, hxS⟩

theorem removeAux_fixed_point (w : World) :
    ∀ fuel (g : DiGraph), g.nodes.card < fuel →
      findSatisfiedAttracting w (removeSatisfiedAttractingAux w fuel g) = none := by
  intro fuel
  induction fuel with
  | zero =>
    intro g h
    omega
  | succ fuel ih =>
    intro g h
    rw [show removeSatisfiedAttractingAux w (fuel + 1) g =
        (match findSatisfiedAttracting w g with
         | none => g
         | some s => removeSatisfiedAttractingAux w fuel (g.removeNodes s)) from rfl]
    cases hfind : findSatisfiedAttracting w g with
    | none => exact hfind
    | some S =>
      refine ih _ ?_
      have hSne : S.Nonempty := sccList_mem_nonempty (findSatisfiedAttracting_mem hfind).1
      have hSsub : S ⊆ g.nodes := sccList_subset (findSatisfiedAttracting_mem hfind).1
      have hss : (g.removeNodes S).nodes ⊂ g.nodes := by
        rw [removeNodes_nodes]
        obtain ⟨u, hu⟩ := hSne
        constructor
        · exact Finset.sdiff_subset
        · intro hsub
          have := hsub (hSsub hu)
          rw [Finset.mem_sdiff] at this
          exact this.2 hu
      have := Finset.card_lt_card hss
      omega

/-- C6: the satisfied-attracting-component pass removes only satisfied
actions, runs to a fixed point (no all-satisfied attracting component — an
SCC with no edge leaving it — remains), and afterwards, unless the caller
passed `no_force`, every true root (successor of the dummy root recorded at
entry) is a node of the resulting graph. -/
theorem C6_satisfied_attracting_pass (w : World) (noForce : Bool) (g : DiGraph) :
    (∀ x ∈ (g.removeNode ROOT).nodes,
        x ∉ (remove_satisfied_attracting_components w (g.removeNode ROOT)).nodes →
        w.satisfied x = true) ∧
    (∀ S ∈ sccList (remove_satisfied_attracting_components w (g.removeNode ROOT)),
        isClosedB (remove_satisfied_attracting_components w (g.removeNode ROOT)) S = true →
        ¬ ∀ u ∈ S, w.satisfied u = true) ∧
    (noForce = false → ∀ r ∈ DiGraph.succs g ROOT, r ∈ (dropRootAndPrune w noForce g).nodes) := by
  refine ⟨?_, ?_, ?_⟩
  · intro x hx hnx
    exact removeAux_removed_satisfied w _ _ x hx hnx
  · intro S hS hclosed hsat
    have hnone := removeAux_fixed_point w ((g.removeNode ROOT).nodes.card + 1)
      (g.removeNode ROOT) (Nat.lt_succ_self _)
    unfold findSatisfiedAttracting at hnone
    rw [List.find?_eq_none] at hnone
    refine hnone S hS ?_
    simp only [Bool.and_eq_true, decide_eq_true_eq]
    exact ⟨hclosed, hsat⟩
  · intro hnf r hr
    subst hnf
    simp only [dropRootAndPrune, if_neg (by simp : ¬(false = true))]
    exact Finset.mem_union_right _ hr

/-- Witness for C6 on a concrete graph with a satisfied sink: the pass
removes node 2 (satisfied), and the theorem certifies that only satisfied
nodes can be removed and that the true root 1 is re-added. -/
theorem C6_satisfied_attracting_pass_witness :
    satW.satisfied 2 = true ∧
      (∀ r ∈ DiGraph.succs satG ROOT, r ∈ (dropRootAndPrune satW false satG).nodes) :=
  ⟨(C6_satisfied_attracting_pass satW false satG).1 2 (by decide) (by decide),
   (C6_satisfied_attracting_pass satW false satG).2.2 rfl⟩

/-! ## The intra-component ordering pass (C5) -/

theorem picks_cons_perm {α : Type*} :
    ∀ (l : List α) (x : α) (rest : List α), (x, rest) ∈ picks l →
      List.Perm (x :: rest) l := by
  intro l
  induction l with
  | nil =>
    intro x rest h
    simp [picks] at h
  | cons y ys ih =>
    intro x rest h
    simp only [picks, List.mem_cons, List.mem_map] at h
    rcases h with h | ⟨⟨x', rest'⟩, hp, heq⟩
    · rw [Prod.mk.injEq] at h
      obtain ⟨rfl, rfl⟩ := h
      exact List.Perm.refl _
    · rw [Prod.mk.injEq] at heq
      obtain ⟨rfl, rfl⟩ := heq
      exact (List.Perm.swap y x' rest').trans (List.Perm.cons y (ih x' rest' hp))

theorem picks_length {α : Type*} (l : List α) (x : α) (rest : List α)
    (h : (x, rest) ∈ picks l) : rest.length + 1 = l.length := by
  have := (picks_cons_perm l x rest h).length_eq
  simpa using this

theorem exists_picks_of_mem {α : Type*} :
    ∀ (l : List α) (x : α), x ∈ l → ∃ rest, (x, rest) ∈ picks l := by
  intro l
  induction l with
  | nil => simp
  | cons y ys ih =>
    intro x hx
    rcases List.mem_cons.mp hx with rfl | hx'
    · exact ⟨ys, by simp [picks]⟩
    · obtain ⟨rest, hrest⟩ := ih x hx'
      refine ⟨y :: rest, ?_⟩
      simp only [picks, List.mem_cons, List.mem_map]
      exact Or.inr ⟨(x, rest), hrest, rfl⟩

theorem mem_permsLexAux_iff {α : Type*} :
    ∀ (n : ℕ) (l : List α), l.length = n →
      ∀ p, p ∈ permsLexAux n l ↔ List.Perm p l := by
  intro n
  induction n with
  | zero =>
    intro l hl p
    have hnil : l = [] := List.length_eq_zero.mp hl
    subst hnil
    simp [permsLexAux, List.perm_nil]
  | succ n ih =>
    intro l hl p
    simp only [permsLexAux, List.mem_flatMap, List.mem_map]
    constructor
    · rintro ⟨⟨x, rest⟩, hpick, q, hq, rfl⟩
      have hlenr := picks_length l x rest hpick
      have hlen : rest.length = n := by omega
      have hqr : List.Perm q rest := (ih rest hlen q).mp hq
      exact (List.Perm.cons x hqr).trans (picks_cons_perm l x rest hpick)
    · intro hp
      cases p with
      | nil =>
        exfalso
        have : l = [] := List.perm_nil.mp hp.symm
        subst this
        simp at hl
      | cons x q =>
        have hxl : x ∈ l := hp.subset (List.mem_cons_self x q)
        obtain ⟨rest, hpick⟩ := exists_picks_of_mem l x hxl
        have hcp : List.Perm (x :: rest) l := picks_cons_perm l x rest hpick
        have hqr : List.Perm q rest := (hp.trans hcp.symm).cons_inv
        have hlenr := picks_length l x rest hpick
        have hlen : rest.length = n := by omega
        exact ⟨(x, rest), hpick, q, (ih rest hlen q).mpr hqr, rfl⟩

theorem mem_permsLex_iff {α : Type*} {l p : List α} :
    p ∈ permsLex l ↔ List.Perm p l :=
  mem_permsLexAux_iff l.length l rfl p

theorem mem_crossEdges {w : World} {s t : Finset ℕ} {e : ℕ × ℕ} :
    e ∈ crossEdges w s t ↔
      e.1 ∈ s ∧ e.2 ∈ t ∧ e.1 ≠ e.2 ∧ sameBuild w e.1 e.2 = false := by
  simp [crossEdges, Finset.mem_filter, Finset.mem_product, and_assoc]

theorem addGroupEdges_foldl_mem (w : World) :
    ∀ (l : List (Finset ℕ × Finset ℕ)) (g : DiGraph) (e : ℕ × ℕ),
      e ∈ (l.foldl (fun h pq =>
        (⟨h.nodes ∪ (crossEdges w pq.1 pq.2).image Prod.fst ∪
            (crossEdges w pq.1 pq.2).image Prod.snd,
          h.edges ∪ crossEdges w pq.1 pq.2⟩ : DiGraph)) g).edges ↔
      e ∈ g.edges ∨ ∃ pq ∈ l, e ∈ crossEdges w pq.1 pq.2 := by
  intro l
  induction l with
  | nil => simp
  | cons pq rest ih =>
    intro g e
    simp only [List.foldl_cons]
    rw [ih]
    simp only [Finset.mem_union, List.mem_cons]
    constructor
    · rintro ((h | h) | ⟨pq', h1, h2⟩)
      · exact Or.inl h
      · exact Or.inr ⟨pq, Or.inl rfl, h⟩
      · exact Or.inr ⟨pq', Or.inr h1, h2⟩
    · rintro (h | ⟨pq', (rfl | h1), h2⟩)
      · exact Or.inl (Or.inl h)
      · exact Or.inl (Or.inr h2)
      · exact Or.inr ⟨pq', h1, h2⟩

theorem mem_addGroupEdges {w : World} {g : DiGraph} {perm : List (Finset ℕ)}
    {e : ℕ × ℕ} :
    e ∈ (addGroupEdges w g perm).edges ↔ e ∈ g.edges ∨
      ∃ pq ∈ perm.zip perm.tail, e.1 ∈ pq.1 ∧ e.2 ∈ pq.2 ∧ e.1 ≠ e.2 ∧
        sameBuild w e.1 e.2 = false := by
  rw [addGroupEdges, addGroupEdges_foldl_mem]
  simp only [mem_crossEdges]

theorem find?_eq_some_split {α : Type*} {p : α → Bool} :
    ∀ {l : List α} {a : α}, l.find? p = some a →
      ∃ l1 l2, l = l1 ++ a :: l2 ∧ (∀ x ∈ l1, p x = false) ∧ p a = true := by
  intro l
  induction l with
  | nil =>
    intro a h
    simp at h
  | cons b bs ih =>
    intro a h
    by_cases hpb : p b = true
    · rw [List.find?_cons_of_pos _ hpb] at h
      simp only [Option.some.injEq] at h
      subst h
      exact ⟨[], bs, rfl, by simp, hpb⟩
    · have hpb' : p b = false := by
        revert hpb
        cases p b <;> simp
      rw [List.find?_cons_of_neg _ (by simp [hpb'])] at h
      obtain ⟨l1, l2, rfl, hl1, hpa⟩ := ih h
      exact ⟨b :: l1, l2, rfl, by
        intro x hx
        rcases List.mem_cons.mp hx with rfl | hx'
        · exact hpb'
        · exact hl1 x hx', hpa⟩

theorem foldl_bind_none {α β : Type*} (f : β → α → Option α) :
    ∀ (l : List β), l.foldl (fun acc c => acc.bind (f c)) none = none := by
  intro l
  induction l with
  | nil => rfl
  | cons b bs ih => simpa using ih

theorem foldl_bind_eq_none_iff {α β : Type*} (f : β → α → Option α) :
    ∀ (l : List β) (a : α),
      l.foldl (fun acc c => acc.bind (f c)) (some a) = none ↔
      ∃ pre c post, l = pre ++ c :: post ∧
        ∃ a', pre.foldl (fun acc c => acc.bind (f c)) (some a) = some a' ∧
          f c a' = none := by
  intro l
  induction l with
  | nil =>
    intro a
    constructor
    · intro h
      simp at h
    · rintro ⟨pre, c, post, heq, _⟩
      exact absurd heq (by simp)
  | cons b bs ih =>
    intro a
    have hstep : (b :: bs).foldl (fun acc c => acc.bind (f c)) (some a) =
        bs.foldl (fun acc c => acc.bind (f c)) (f b a) := by
      simp
    cases hfb : f b a with
    | none =>
      rw [hstep, hfb]
      constructor
      · intro _
        exact ⟨[], b, bs, rfl, a, rfl, hfb⟩
      · intro _
        exact foldl_bind_none f bs
    | some a1 =>
      rw [hstep, hfb, ih a1]
      constructor
      · rintro ⟨pre, c, post, rfl, a', hf, hc⟩
        refine ⟨b :: pre, c, post, rfl, a', ?_, hc⟩
        rw [show (b :: pre).foldl (fun acc c => acc.bind (f c)) (some a) =
            pre.foldl (fun acc c => acc.bind (f c)) (f b a) from by simp, hfb]
        exact hf
      · rintro ⟨pre, c, post, heq, a', hf, hc⟩
        cases pre with
        | nil =>
          simp only [List.nil_append, List.cons.injEq] at heq
          obtain ⟨rfl, rfl⟩ := heq
          simp only [List.foldl_nil, Option.some.injEq] at hf
          subst hf
          exact absurd hfb (by rw [hc]; simp)
        | cons p ps =>
          simp only [List.cons_append, List.cons.injEq] at heq
          obtain ⟨rfl, rfl⟩ := heq
          refine ⟨ps, c, post, rfl, a', ?_, hc⟩
          rw [show (b :: ps).foldl (fun acc c => acc.bind (f c)) (some a) =
              ps.foldl (fun acc c => acc.bind (f c)) (f b a) from by simp, hfb] at hf
          exact hf

/-- C5: for every component with two or more scheduled build variants the
ordering pass tries the permutations of that component's variant groups in
`itertools.permutations` order; the edges it adds for a permutation are
exactly one edge from every action of an earlier group to every action of
the consecutive later group, minus self-loops and pairs within one build; it
returns the graph of the first permutation without a cycle through an
unsatisfied action, and the pass raises the user-facing ordering error iff
for some component (given the graph accumulated so far) every permutation
produces such a cycle. -/
theorem C5_intra_component_ordering (w : World) (g : DiGraph) :
    (∀ groups : List (Finset ℕ),
      (tryGroupOrders w g groups = none ↔
        ∀ p ∈ permsLex groups, has_unsatisfied_cycles w (addGroupEdges w g p) = true) ∧
      (∀ g', tryGroupOrders w g groups = some g' →
        ∃ pre p post, permsLex groups = pre ++ p :: post ∧
          List.Perm p groups ∧
          g' = addGroupEdges w g p ∧
          has_unsatisfied_cycles w (addGroupEdges w g p) = false ∧
          ∀ q ∈ pre, has_unsatisfied_cycles w (addGroupEdges w g q) = true)) ∧
    (∀ (perm : List (Finset ℕ)) (e : ℕ × ℕ),
      e ∈ (addGroupEdges w g perm).edges ↔ e ∈ g.edges ∨
        ∃ pq ∈ perm.zip perm.tail, e.1 ∈ pq.1 ∧ e.2 ∈ pq.2 ∧ e.1 ≠ e.2 ∧
          sameBuild w e.1 e.2 = false) ∧
    (enforce_intra_component_ordering w g = none ↔
      ∃ pre c post, componentsWithMultipleBuilds w g = pre ++ c :: post ∧
        ∃ h', pre.foldl (fun acc c => acc.bind
            (fun hh => tryGroupOrders w hh (groupsFor w g c))) (some g) = some h' ∧
          tryGroupOrders w h' (groupsFor w g c) = none) := by
  refine ⟨?_, fun perm e => mem_addGroupEdges, ?_⟩
  · intro groups
    constructor
    · rw [tryGroupOrders, Option.map_eq_none', List.find?_eq_none]
      constructor
      · intro h p hp
        have := h p hp
        revert this
        cases hcyc : has_unsatisfied_cycles w (addGroupEdges w g p) <;> simp
      · intro h p hp
        rw [h p hp]
        simp
    · intro g' hg'
      rw [tryGroupOrders, Option.map_eq_some'] at hg'
      obtain ⟨p, hfind, rfl⟩ := hg'
      obtain ⟨l1, l2, hsplit, hl1, hp⟩ := find?_eq_some_split hfind
      have hmem : p ∈ permsLex groups := by
        rw [hsplit]
        simp
      refine ⟨l1, p, l2, hsplit, mem_permsLex_iff.mp hmem, rfl, ?_, ?_⟩
      · revert hp
        cases hcyc : has_unsatisfied_cycles w (addGroupEdges w g p) <;> simp
      · intro q hq
        have := hl1 q hq
        revert this
        cases hcyc : has_unsatisfied_cycles w (addGroupEdges w g q) <;> simp
  · exact foldl_bind_eq_none_iff
      (fun c hh => tryGroupOrders w hh (groupsFor w g c))
      (componentsWithMultipleBuilds w g) g

/-- Witness for C5: a component with two builds whose actions form an
unsatisfied cycle; every permutation keeps the cycle, so the ordering pass
fails with the user-facing error. -/
theorem C5_intra_component_ordering_witness :
    enforce_intra_component_ordering ordW ordG = none ∧
      ∀ p ∈ permsLex (groupsFor ordW ordG 7),
        has_unsatisfied_cycles ordW (addGroupEdges ordW ordG p) = true :=
  ⟨by decide,
   ((C5_intra_component_ordering ordW ordG).1 (groupsFor ordW ordG 7)).1.mp (by decide)⟩

/-! ## The scheduler transition system (C3, C8, C9, C10) -/

theorem inv_init (E : Exec) : Inv E initState := by
  constructor <;> simp [initState, queuedAll]

set_option maxHeartbeats 1600000 in
theorem inv_step {E : Exec} {s s' : SchedState} {e : SEvent}
    (hinv : Inv E s) (hstep : step E s e = some s') : Inv E s' := by
  cases e with
  | submit u =>
    simp only [step] at hstep
    split at hstep
    · rename_i hg
      obtain ⟨hgn, hgs, hgd, hgl⟩ := hg
      simp only [Option.some.injEq] at hstep
      subst hstep
      refine ⟨?_, ?_, ?_, ?_, ?_, ?_, ?_, ?_, ?_, ?_, ?_, ?_, ?_, ?_, ?_, ?_, ?_, ?_, ?_⟩
      · exact hinv.ranBody_sub.trans (Finset.subset_insert _ _)
      · exact hinv.cancelled_sub.trans (Finset.subset_insert _ _)
      · exact Finset.insert_subset_insert _ hinv.queued_sub
      · exact hinv.cancelled_ever_sub
      · exact Finset.disjoint_insert_left.mpr
          ⟨fun hu => hgs (hinv.ranBody_sub hu), hinv.queued_ranBody⟩
      · exact Finset.disjoint_insert_left.mpr
          ⟨fun hu => hgs (hinv.cancelled_sub hu), hinv.queued_cancelled⟩
      · exact hinv.ranBody_cancelled
      · intro v hv
        rcases Finset.mem_insert.mp hv with rfl | hv'
        · exact hgd
        · exact hinv.deps_done v hv'
      · exact hinv.done_ran
      · exact hinv.completedOk_ran
      · exact hinv.skipped_stop
      · exact hinv.stop_failure
      · exact hinv.failed_ran
      · exact hinv.completedErr_ran
      · exact hinv.running_ran
      · exact hinv.failures_tracked
      · exact hinv.cancelled_failed
      · intro x hx
        rcases Finset.mem_insert.mp hx with rfl | hx'
        · simp [queuedAll]
        · have := hinv.submitted_tracked hx'
          simp only [queuedAll, Finset.mem_union, Finset.mem_insert] at this ⊢
          tauto
      · exact hinv.invocations_ok
    · simp at hstep
  | startRun u =>
    simp only [step] at hstep
    split at hstep
    · rename_i hg
      obtain ⟨hgq, hgs⟩ := hg
      simp only [Option.some.injEq] at hstep
      subst hstep
      have huns : u ∈ s.submitted := hinv.queued_sub hgq
      refine ⟨?_, ?_, ?_, ?_, ?_, ?_, ?_, ?_, ?_, ?_, ?_, ?_, ?_, ?_, ?_, ?_, ?_, ?_, ?_⟩
      · exact Finset.insert_subset huns hinv.ranBody_sub
      · exact hinv.cancelled_sub
      · exact (Finset.erase_subset _ _).trans hinv.queued_sub
      · exact hinv.cancelled_ever_sub
      · refine Finset.disjoint_left.mpr ?_
        intro x hx hx'
        rcases Finset.mem_insert.mp hx' with rfl | hx''
        · exact (Finset.mem_erase.mp hx).1 rfl
        · exact Finset.disjoint_left.mp hinv.queued_ranBody
            (Finset.mem_of_mem_erase hx) hx''
      · exact Finset.disjoint_of_subset_left (Finset.erase_subset _ _) hinv.queued_cancelled
      · exact Finset.disjoint_insert_left.mpr
          ⟨fun hc => Finset.disjoint_left.mp hinv.queued_cancelled hgq hc,
           hinv.ranBody_cancelled⟩
      · exact hinv.deps_done
      · exact hinv.done_ran.trans (Finset.union_subset_union
          (Finset.filter_subset_filter _ (Finset.subset_insert _ _)) (Finset.Subset.refl _))
      · exact hinv.completedOk_ran.trans (Finset.union_subset_union
          (Finset.filter_subset_filter _ (Finset.subset_insert _ _)) (Finset.Subset.refl _))
      · exact hinv.skipped_stop
      · intro hstop
        rw [hgs] at hstop
        exact absurd hstop (by simp)
      · exact hinv.failed_ran.trans
          (Finset.filter_subset_filter _ (Finset.subset_insert _ _))
      · exact hinv.completedErr_ran.trans
          (Finset.filter_subset_filter _ (Finset.subset_insert _ _))
      · exact Finset.insert_subset_insert _ hinv.running_ran
      · intro x hx
        rw [Finset.mem_filter, Finset.mem_insert] at hx
        rcases hx.1 with rfl | hx'
        · simp
        · have := hinv.failures_tracked (Finset.mem_filter.mpr ⟨hx', hx.2⟩)
          simp only [Finset.mem_union, Finset.mem_insert] at this ⊢
          tauto
      · exact hinv.cancelled_failed
      · intro x hx
        have := hinv.submitted_tracked hx
        simp only [queuedAll, Finset.mem_union, Finset.mem_insert, Finset.mem_erase] at this ⊢
        by_cases hxu : x = u
        · subst hxu
          tauto
        · tauto
      · intro t ht
        rcases List.mem_append.mp ht with ht' | ht'
        · exact hinv.invocations_ok t ht'
        · rw [List.mem_singleton] at ht'
          subst ht'
          exact ⟨rfl, rfl⟩
    · simp at hstep
  | startSkip u =>
    simp only [step] at hstep
    split at hstep
    · rename_i hg
      obtain ⟨hgq, hgs⟩ := hg
      simp only [Option.some.injEq] at hstep
      subst hstep
      have huns : u ∈ s.submitted := hinv.queued_sub hgq
      refine ⟨?_, ?_, ?_, ?_, ?_, ?_, ?_, ?_, ?_, ?_, ?_, ?_, ?_, ?_, ?_, ?_, ?_, ?_, ?_⟩
      · exact hinv.ranBody_sub
      · exact hinv.cancelled_sub
      · exact (Finset.erase_subset _ _).trans hinv.queued_sub
      · exact hinv.cancelled_ever_sub
      · exact Finset.disjoint_of_subset_left (Finset.erase_subset _ _) hinv.queued_ranBody
      · exact Finset.disjoint_of_subset_left (Finset.erase_subset _ _) hinv.queued_cancelled
      · exact hinv.ranBody_cancelled
      · exact hinv.deps_done
      · exact hinv.done_ran.trans (Finset.union_subset_union (Finset.Subset.refl _)
          (Finset.subset_insert _ _))
      · intro x hx
        rcases Finset.mem_insert.mp hx with rfl | hx'
        · exact Finset.mem_union_right _ (Finset.mem_insert_self _ _)
        · exact (Finset.union_subset_union (Finset.Subset.refl _)
            (Finset.subset_insert _ _)) (hinv.completedOk_ran hx')
      · intro _
        exact hgs
      · intro hstop
        exact hinv.stop_failure hstop
      · exact hinv.failed_ran
      · exact hinv.completedErr_ran
      · exact hinv.running_ran
      · exact hinv.failures_tracked
      · exact hinv.cancelled_failed
      · intro x hx
        have := hinv.submitted_tracked hx
        simp only [queuedAll, Finset.mem_union, Finset.mem_insert, Finset.mem_erase] at this ⊢
        by_cases hxu : x = u
        · subst hxu
          tauto
        · tauto
      · exact hinv.invocations_ok
    · simp at hstep
  | finishOk u =>
    simp only [step] at hstep
    split at hstep
    · rename_i hg
      obtain ⟨hgr, hgo⟩ := hg
      simp only [Option.some.injEq] at hstep
      subst hstep
      refine ⟨?_, ?_, ?_, ?_, ?_, ?_, ?_, ?_, ?_, ?_, ?_, ?_, ?_, ?_, ?_, ?_, ?_, ?_, ?_⟩
      · exact hinv.ranBody_sub
      · exact hinv.cancelled_sub
      · exact hinv.queued_sub
      · exact hinv.cancelled_ever_sub
      · exact hinv.queued_ranBody
      · exact hinv.queued_cancelled
      · exact hinv.ranBody_cancelled
      · exact hinv.deps_done
      · exact hinv.done_ran
      · intro x hx
        rcases Finset.mem_insert.mp hx with rfl | hx'
        · exact Finset.mem_union_left _
            (Finset.mem_filter.mpr ⟨hinv.running_ran hgr, hgo⟩)
        · exact hinv.completedOk_ran hx'
      · exact hinv.skipped_stop
      · intro hstop
        rcases hinv.stop_failure hstop with h | h | h
        · obtain ⟨x, hx⟩ := h
          rw [Finset.mem_filter] at hx
          refine Or.inl ⟨x, Finset.mem_filter.mpr ⟨Finset.mem_erase.mpr ⟨?_, hx.1⟩, hx.2⟩⟩
          rintro rfl
          rw [hgo] at hx
          simp at hx
        · exact Or.inr (Or.inl h)
        · exact Or.inr (Or.inr h)
      · exact hinv.failed_ran
      · exact hinv.completedErr_ran
      · exact (Finset.erase_subset _ _).trans hinv.running_ran
      · intro x hx
        have := hinv.failures_tracked hx
        rw [Finset.mem_filter] at hx
        simp only [Finset.mem_union, Finset.mem_erase] at this ⊢
        have hxu : x ≠ u := by
          rintro rfl
          rw [hgo] at hx
          simp at hx
        tauto
      · exact hinv.cancelled_failed
      · intro x hx
        have := hinv.submitted_tracked hx
        simp only [queuedAll, Finset.mem_union, Finset.mem_insert, Finset.mem_erase] at this ⊢
        by_cases hxu : x = u
        · subst hxu
          tauto
        · tauto
      · exact hinv.invocations_ok
    · simp at hstep
  | finishErr u =>
    simp only [step] at hstep
    split at hstep
    · rename_i hg
      obtain ⟨hgr, hgo⟩ := hg
      simp only [Option.some.injEq] at hstep
      subst hstep
      refine ⟨?_, ?_, ?_, ?_, ?_, ?_, ?_, ?_, ?_, ?_, ?_, ?_, ?_, ?_, ?_, ?_, ?_, ?_, ?_⟩
      · exact hinv.ranBody_sub
      · exact hinv.cancelled_sub
      · exact hinv.queued_sub
      · exact hinv.cancelled_ever_sub
      · exact hinv.queued_ranBody
      · exact hinv.queued_cancelled
      · exact hinv.ranBody_cancelled
      · exact hinv.deps_done
      · exact hinv.done_ran
      · exact hinv.completedOk_ran
      · intro _
        rfl
      · intro _
        exact Or.inr (Or.inl ⟨u, Finset.mem_insert_self _ _⟩)
      · exact hinv.failed_ran
      · intro x hx
        rcases Finset.mem_insert.mp hx with rfl | hx'
        · exact Finset.mem_filter.mpr ⟨hinv.running_ran hgr, hgo⟩
        · exact hinv.completedErr_ran hx'
      · exact (Finset.erase_subset _ _).trans hinv.running_ran
      · intro x hx
        have := hinv.failures_tracked hx
        simp only [Finset.mem_union, Finset.mem_insert, Finset.mem_erase] at this ⊢
        by_cases hxu : x = u
        · subst hxu
          tauto
        · tauto
      · exact hinv.cancelled_failed
      · intro x hx
        have := hinv.submitted_tracked hx
        simp only [queuedAll, Finset.mem_union, Finset.mem_insert, Finset.mem_erase] at this ⊢
        by_cases hxu : x = u
        · subst hxu
          tauto
        · tauto
      · exact hinv.invocations_ok
    · simp at hstep
  | procOk u =>
    simp only [step] at hstep
    split at hstep
    · rename_i hg
      simp only [Option.some.injEq] at hstep
      subst hstep
      refine ⟨?_, ?_, ?_, ?_, ?_, ?_, ?_, ?_, ?_, ?_, ?_, ?_, ?_, ?_, ?_, ?_, ?_, ?_, ?_⟩
      · exact hinv.ranBody_sub
      · exact hinv.cancelled_sub
      · exact hinv.queued_sub
      · exact hinv.cancelled_ever_sub
      · exact hinv.queued_ranBody
      · exact hinv.queued_cancelled
      · exact hinv.ranBody_cancelled
      · intro v hv
        exact (hinv.deps_done v hv).trans (Finset.subset_insert _ _)
      · intro x hx
        rcases Finset.mem_insert.mp hx with rfl | hx'
        · exact hinv.completedOk_ran hg
        · exact hinv.done_ran hx'
      · exact (Finset.erase_subset _ _).trans hinv.completedOk_ran
      · exact hinv.skipped_stop
      · exact hinv.stop_failure
      · exact hinv.failed_ran
      · exact hinv.completedErr_ran
      · exact hinv.running_ran
      · exact hinv.failures_tracked
      · exact hinv.cancelled_failed
      · intro x hx
        have := hinv.submitted_tracked hx
        simp only [queuedAll, Finset.mem_union, Finset.mem_insert, Finset.mem_erase] at this ⊢
        by_cases hxu : x = u
        · subst hxu
          tauto
        · tauto
      · exact hinv.invocations_ok
    · simp at hstep
  | procErr u =>
    simp only [step] at hstep
    split at hstep
    · rename_i hg
      simp only [Option.some.injEq] at hstep
      subst hstep
      have hfne : s.failed ++ [u] ≠ [] := by simp
      refine ⟨?_, ?_, ?_, ?_, ?_, ?_, ?_, ?_, ?_, ?_, ?_, ?_, ?_, ?_, ?_, ?_, ?_, ?_, ?_⟩
      · exact hinv.ranBody_sub
      · exact Finset.union_subset hinv.cancelled_sub hinv.queued_sub
      · simp
      · exact Finset.union_subset_union hinv.cancelled_ever_sub (Finset.Subset.refl _)
      · simp
      · simp
      · rw [Finset.disjoint_union_right]
        exact ⟨hinv.ranBody_cancelled, hinv.queued_ranBody.symm⟩
      · exact hinv.deps_done
      · exact hinv.done_ran
      · exact hinv.completedOk_ran
      · exact hinv.skipped_stop
      · intro _
        exact Or.inr (Or.inr hfne)
      · intro x hx
        rw [List.toFinset_append, List.toFinset_cons, List.toFinset_nil] at hx
        rcases Finset.mem_union.mp hx with hx' | hx'
        · exact hinv.failed_ran hx'
        · simp only [insert_emptyc_eq, Finset.mem_singleton] at hx'
          subst hx'
          exact hinv.completedErr_ran hg
      · exact (Finset.erase_subset _ _).trans hinv.completedErr_ran
      · exact hinv.running_ran
      · intro x hx
        have := hinv.failures_tracked hx
        simp only [Finset.mem_union, Finset.mem_erase, List.toFinset_append,
          List.toFinset_cons, List.toFinset_nil, insert_emptyc_eq,
          Finset.mem_singleton] at this ⊢
        by_cases hxu : x = u
        · subst hxu
          tauto
        · tauto
      · intro _
        exact hfne
      · intro x hx
        have := hinv.submitted_tracked hx
        simp only [queuedAll, Finset.mem_union, Finset.mem_erase, Finset.not_mem_empty,
          List.toFinset_append, List.toFinset_cons, List.toFinset_nil, insert_emptyc_eq,
          Finset.mem_singleton] at this ⊢
        by_cases hxu : x = u
        · subst hxu
          tauto
        · tauto
      · exact hinv.invocations_ok
    · simp at hstep
  | procCancelled u =>
    simp only [step] at hstep
    split at hstep
    · rename_i hg
      simp only [Option.some.injEq] at hstep
      subst hstep
      refine ⟨?_, ?_, ?_, ?_, ?_, ?_, ?_, ?_, ?_, ?_, ?_, ?_, ?_, ?_, ?_, ?_, ?_, ?_, ?_⟩
      · exact hinv.ranBody_sub
      · exact hinv.cancelled_sub
      · exact hinv.queued_sub
      · exact (Finset.erase_subset _ _).trans hinv.cancelled_ever_sub
      · exact hinv.queued_ranBody
      · exact hinv.queued_cancelled
      · exact hinv.ranBody_cancelled
      · exact hinv.deps_done
      · exact hinv.done_ran
      · exact hinv.completedOk_ran
      · exact hinv.skipped_stop
      · exact hinv.stop_failure
      · exact hinv.failed_ran
      · exact hinv.completedErr_ran
      · exact hinv.running_ran
      · exact hinv.failures_tracked
      · exact hinv.cancelled_failed
      · intro x hx
        have := hinv.submitted_tracked hx
        have hce := hinv.cancelled_ever_sub
        simp only [queuedAll, Finset.mem_union, Finset.mem_erase] at this ⊢
        by_cases hxu : x = u
        · subst hxu
          have : x ∈ s.cancelled → x ∈ s.cancelledEver := fun h => hce h
          tauto
        · tauto
      · exact hinv.invocations_ok
    · simp at hstep

theorem inv_reachable {E : Exec} {s : SchedState} (h : ReachableState E s) :
    Inv E s := by
  obtain ⟨tr, htr⟩ := h
  have : ∀ (tr : List SEvent) (s0 s1 : SchedState), Inv E s0 →
      execTrace E s0 tr = some s1 → Inv E s1 := by
    intro tr
    induction tr with
    | nil =>
      intro s0 s1 h0 h1
      simp only [execTrace, Option.some.injEq] at h1
      subst h1
      exact h0
    | cons e es ih =>
      intro s0 s1 h0 h1
      simp only [execTrace] at h1
      cases hstep : step E s0 e with
      | none => rw [hstep] at h1; simp at h1
      | some sm =>
        rw [hstep] at h1
        exact ih sm s1 (inv_step h0 hstep) h1
  exact this tr initState s (inv_init E) htr

/-- In a well-formed acyclic graph, every nonempty node subset has a member
with no edge into the subset. -/
theorem exists_no_succ_in {g : DiGraph} (hwf : DiGraph.WF g)
    (hac : DiGraph.Acyclic g) (N : Finset ℕ) :
    N ⊆ g.nodes → N.Nonempty → ∃ u ∈ N, ∀ v ∈ N, (u, v) ∉ g.edges := by
  induction N using Finset.strongInduction with
  | _ N ih =>
    intro hsub hne
    obtain ⟨u₀, hu₀⟩ := hne
    by_cases h0 : ∀ v ∈ N, (u₀, v) ∉ g.edges
    · exact ⟨u₀, hu₀, h0⟩
    · push_neg at h0
      obtain ⟨v, hvN, hedge⟩ := h0
      have hvN' : v ∈ N.filter (fun x => reachesB g v x = true) :=
        Finset.mem_filter.mpr ⟨hvN, reachesB_refl g v⟩
      have hu₀N' : u₀ ∉ N.filter (fun x => reachesB g v x = true) := by
        intro hmem
        have hr : Reaches g v u₀ :=
          (reachesB_iff hwf).mp (Finset.mem_filter.mp hmem).2
        exact hac u₀ v hedge hr
      have hssub : N.filter (fun x => reachesB g v x = true) ⊂ N :=
        (Finset.ssubset_iff_of_subset (Finset.filter_subset _ _)).mpr ⟨u₀, hu₀, hu₀N'⟩
      obtain ⟨u, huN', hu⟩ :=
        ih _ hssub ((Finset.filter_subset _ _).trans hsub) ⟨v, hvN'⟩
      refine ⟨u, (Finset.filter_subset _ _) huN', ?_⟩
      intro w hwN hw
      have hvu : Reaches g v u := (reachesB_iff hwf).mp (Finset.mem_filter.mp huN').2
      have hvw : Reaches g v w := hvu.tail hw
      exact hu w (Finset.mem_filter.mpr ⟨hwN, (reachesB_iff hwf).mpr hvw⟩) hw

/-- C3: in every terminal state of the scheduler, the returned failed list
contains exactly the actions whose invoked run raised (never a cancelled
action); once `_stop_the_world` is set by a failure no further run body can
be invoked; and an empty failed list means every node of the graph had its
run invoked and it returned successfully.  (The claim's "no new work is
submitted" clause is not part of this statement: submission after a failure
is possible, see the counterexample.) -/
theorem C3_scheduler_failure_containment (E : Exec) (s : SchedState)
    (hreach : ReachableState E s) (hterm : Terminal E s) :
    s.failed.toFinset = s.ranBody.filter (fun u => E.outcome u = false) ∧
    Disjoint s.failed.toFinset s.cancelledEver ∧
    (∀ u, s.stop = true → step E s (SEvent.startRun u) = none) ∧
    (s.failed = [] → E.graph.nodes ⊆ s.ranBody.filter (fun u => E.outcome u = true)) := by
  have hinv := inv_reachable hreach
  obtain ⟨hq, hrest⟩ := hterm
  simp only [queuedAll, Finset.union_eq_empty] at hq
  obtain ⟨⟨⟨⟨hq1, hq2⟩, hq3⟩, hq4⟩, hq5⟩ := hq
  have hfe : s.failed.toFinset = s.ranBody.filter (fun u => E.outcome u = false) := by
    apply Finset.Subset.antisymm hinv.failed_ran
    intro x hx
    have := hinv.failures_tracked hx
    rw [hq2, hq4] at this
    simpa using this
  refine ⟨hfe, ?_, ?_, ?_⟩
  · rw [hfe]
    exact Finset.disjoint_of_subset_left (Finset.filter_subset _ _) hinv.ranBody_cancelled
  · intro u hstop
    simp [step, hstop]
  · intro hf
    have hnodes : E.graph.nodes ⊆ s.done := by
      rcases hrest with h | h
      · exact Finset.sdiff_eq_empty_iff_subset.mp h
      · exact absurd hf h
    have hskip : s.skipped = ∅ := by
      by_contra hne
      have hstop := hinv.skipped_stop (Finset.nonempty_iff_ne_empty.mpr hne)
      rcases hinv.stop_failure hstop with h | h | h
      · rw [hq2] at h
        simp at h
      · rw [hq4] at h
        simp at h
      · exact h hf
    intro x hx
    have := hinv.done_ran (hnodes hx)
    rw [hskip] at this
    simpa using this

/-- Witness for C3: the completed run of `okE` — the failed list is exactly
the (empty) set of raising runs, and every node ran successfully. -/
theorem C3_scheduler_failure_containment_witness :
    okFinal.failed.toFinset = okFinal.ranBody.filter (fun u => okE.outcome u = false) ∧
    okE.graph.nodes ⊆ okFinal.ranBody.filter (fun u => okE.outcome u = true) := by
  have h := C3_scheduler_failure_containment okE okFinal ⟨okTrace, by decide⟩
    ⟨by decide, Or.inl (by decide)⟩
  exact ⟨h.1, h.2.2.2 rfl⟩

/-- Counterexample for C3: after `failTrace` the failure of action 1 has
occurred (`_stop_the_world` is set, the failed future is pending), yet the
loop submits the new action 3 — `while ... or self._queued_actions` keeps
iterating and `get_ready()` is drained before completed futures are
processed, so "no new work is submitted after the first failure" is false. -/
theorem C3_counterexample_submission_after_failure :
    execTrace schedE initState failTrace = some failState ∧
    failState.stop = true ∧ failState.completedErr = {1} ∧
    3 ∉ failState.submitted ∧
    (execTrace schedE initState (failTrace ++ [SEvent.submit 3])).map
      (fun s => decide (3 ∈ s.submitted)) = some true := by
  decide

/-- C9: in every reachable state of the scheduler, every submitted action
had all its graph successors (dependencies) marked done at submission, and
`done()` is only ever recorded for an action that either ran successfully or
was skipped — a skip in turn only happens after `_stop_the_world` was set.
(The claim's "done() is called only on successful completion" is not part of
this statement: skipped actions are also marked done, see the
counterexample.) -/
theorem C9_dependencies_done_before_submit (E : Exec) (s : SchedState)
    (hreach : ReachableState E s) :
    (∀ u ∈ s.submitted, DiGraph.succs E.graph u ⊆ s.done) ∧
    s.done ⊆ s.ranBody.filter (fun v => E.outcome v = true) ∪ s.skipped ∧
    (s.skipped.Nonempty → s.stop = true) := by
  have hinv := inv_reachable hreach
  exact ⟨hinv.deps_done, hinv.done_ran, hinv.skipped_stop⟩

/-- Witness for C9: in the completed run of `okE`, 5's dependencies were done
at submission and every done node ran successfully (or was skipped). -/
theorem C9_dependencies_done_before_submit_witness :
    DiGraph.succs okE.graph 5 ⊆ okFinal.done ∧
    okFinal.done ⊆ okFinal.ranBody.filter (fun v => okE.outcome v = true) ∪
      okFinal.skipped := by
  have h := C9_dependencies_done_before_submit okE okFinal ⟨okTrace, by decide⟩
  exact ⟨h.1 5 (by decide), h.2.1⟩

/-- Counterexample for C9: after `skipTrace`, action 3 is done without its
run ever having been invoked (a worker saw `_stop_the_world` and returned,
the loop called `done()` on the exception-free future), and its dependent 4
is submitted although 3 never completed successfully. -/
theorem C9_counterexample_done_without_successful_run :
    execTrace schedE initState skipTrace = some skipState ∧
    3 ∈ skipState.done ∧ 3 ∉ skipState.ranBody ∧
    (4, 3) ∈ schedE.graph.edges ∧ 4 ∈ skipState.submitted := by
  decide

/-- C8: the prologue of `run` fails with the internal-consistency error
exactly when the prerequisites pass but the resolved graph still has a cycle;
it fails with the user-facing error exactly when a prerequisite fails; it
succeeds exactly when neither holds (no silent recovery); the two error kinds
are distinct; and in a well-formed acyclic graph no starvation is possible —
whenever undone nodes remain, one of them has all its dependencies done — so
"no action ready while pending actions remain" can only arise from a cycle,
which the prologue already aborts on. -/
theorem C8_internal_consistency (pre : ℕ → Bool) (g : DiGraph) :
    (run_prologue pre g = Except.error ErrKind.internalErr ↔
       prereqsOk pre g = true ∧ isAcyclicB g = false) ∧
    (run_prologue pre g = Except.error ErrKind.userErr ↔ prereqsOk pre g = false) ∧
    (run_prologue pre g = Except.ok () ↔
       prereqsOk pre g = true ∧ isAcyclicB g = true) ∧
    ErrKind.internalErr ≠ ErrKind.userErr ∧
    (DiGraph.WF g → isAcyclicB g = true → ∀ D : Finset ℕ,
       (g.nodes \ D).Nonempty → ∃ u ∈ g.nodes \ D, DiGraph.succs g u ⊆ D) := by
  refine ⟨?_, ?_, ?_, by decide, ?_⟩
  · cases hp : prereqsOk pre g <;> cases ha : isAcyclicB g <;>
      simp [run_prologue, hp, ha]
  · cases hp : prereqsOk pre g <;> cases ha : isAcyclicB g <;>
      simp [run_prologue, hp, ha]
  · cases hp : prereqsOk pre g <;> cases ha : isAcyclicB g <;>
      simp [run_prologue, hp, ha]
  · intro hwf hac D hD
    have hA : DiGraph.Acyclic g := (isAcyclicB_iff hwf).mp hac
    obtain ⟨u, huN, hu⟩ := exists_no_succ_in hwf hA (g.nodes \ D) Finset.sdiff_subset hD
    refine ⟨u, huN, ?_⟩
    intro v hv
    rw [DiGraph.mem_succs] at hv
    have hvnode : v ∈ g.nodes := (hwf _ hv).2
    by_contra hvD
    exact hu v (Finset.mem_sdiff.mpr ⟨hvnode, hvD⟩) hv

/-- Witness for C8: on the acyclic graph `satG` the prologue succeeds, and
with node 2 done, one of the pending nodes (node 1) is ready. -/
theorem C8_internal_consistency_witness :
    run_prologue (fun _ => true) satG = Except.ok () ∧
    ∃ u ∈ satG.nodes \ {2}, DiGraph.succs satG u ⊆ ({2} : Finset ℕ) := by
  have h := C8_internal_consistency (fun _ => true) satG
  exact ⟨h.2.2.1.mpr (by decide), h.2.2.2.2 (by decide) (by decide) {2} (by decide)⟩

/-- C10: in every reachable state of the scheduler, every recorded `run`
invocation was passed `pretend = self.pretend` and `explicitly_requested =
(action in self.actions)` — exactly the pair `_run_action` builds. -/
theorem C10_run_invocation_arguments (E : Exec) (s : SchedState)
    (hreach : ReachableState E s) :
    ∀ t ∈ s.invocations,
      (t.2.1, t.2.2) = run_action_args E.requested E.pretendFlag t.1 := by
  have hinv := inv_reachable hreach
  intro t ht
  have h := hinv.invocations_ok t ht
  simp only [run_action_args, Prod.mk.injEq]
  exact ⟨h.1, h.2⟩

/-- Witness for C10: in the completed run of `okE`, the one invocation of 5
carried `pretend = false` and `explicitly_requested = true`. -/
theorem C10_run_invocation_arguments_witness :
    okFinal.invocations = [(5, false, true)] ∧
    ((false, true) : Bool × Bool) = run_action_args okE.requested okE.pretendFlag 5 :=
  ⟨by decide, C10_run_invocation_arguments okE okFinal ⟨okTrace, by decide⟩
    (5, false, true) (by decide)⟩

/-- Counterexample for C10: node 2 is discovered by the dependency expansion
of node 1 (edge `1 → 2` of the initial dependency graph), yet because 2 is
also in `self.actions` its run receives `explicitly_requested = True` — the
claim's "dependency actions discovered by expansion always receive
explicitly_requested false" does not hold for dependencies that are
themselves requested. -/
theorem C10_counterexample_requested_dependency :
    (1, 2) ∈ depG.edges ∧
    execTrace depE initState [SEvent.submit 2, SEvent.startRun 2] = some depState ∧
    depState.invocations = [(2, false, true)] ∧ 2 ∈ depE.requested := by
  decide

end Orchestra

